import Mathlib

/-!
Verification development for the vector-and-integer compression core of the
lance columnar storage engine (rust sources:
`rust/lance-encoding/src/previous/encodings/physical/bitpack.rs`,
`rust/lance-index/src/vector/sq/storage.rs`,
`rust/lance/src/index/vector/pq.rs`).

Machine integers are modelled as `Nat` with explicit `% 2 ^ w` where overflow
or truncation matter.  Fallible Rust code (`Result`) is modelled with
`Except`; a Rust panic (out-of-bounds index, `unwrap` on `None`, integer
underflow) is modelled as `Option.none` at the function that panics.
-/

set_option maxHeartbeats 1000000

/-! ## Scalar-quantization storage (`lance-index/src/vector/sq/storage.rs`) -/

/-- Model of an arrow `RecordBatch` as consumed by the SQ storage: a `row_id`
column of u64 values and an `sq_code` FixedSizeList column of u8 codes whose
element length is `dim`.  Schemas and float vector data are elided: no claim
in scope depends on them. -/
structure SQRecordBatch where
  row_ids : List Nat
  sq_codes : List Nat
  dim : Nat
deriving DecidableEq, Repr

/-- An immutable chunk of ScalarQuantizationStorage (struct `SQStorageChunk`):
the typed views `row_ids`, `sq_codes` and the cached `dim` of the batch. -/
structure SQStorageChunk where
  row_ids : List Nat
  sq_codes : List Nat
  dim : Nat
deriving DecidableEq, Repr

/-- `SQStorageChunk::new`: builds the chunk from the batch columns.  The
column lookups and the FixedSizeList downcast cannot fail in this typed
model, so the `Result` wrapper of the source is dropped here. -/
def SQStorageChunk.new (batch : SQRecordBatch) : SQStorageChunk :=
  { row_ids := batch.row_ids, sq_codes := batch.sq_codes, dim := batch.dim }

/-- `SQStorageChunk::len`: length of the `row_ids` view. -/
def SQStorageChunk.len (c : SQStorageChunk) : Nat :=
  c.row_ids.length

/-- `SQStorageChunk::row_id`: `self.row_ids.value(id)`.  The arrow accessor
panics when `id` is out of bounds, hence the `Option`. -/
def SQStorageChunk.row_id (c : SQStorageChunk) (id : Nat) : Option Nat :=
  c.row_ids.get? id

/-- The fields of `ScalarQuantizer` that the storage constructor computes
(`ScalarQuantizer::with_bounds(num_bits, chunks[0].dim(), bounds)`); the
floating-point bounds are elided, no claim in scope depends on them. -/
structure ScalarQuantizer where
  num_bits : Nat
  dim : Nat
deriving DecidableEq, Repr

/-- Struct `ScalarQuantizationStorage`: parallel `offsets` and `chunks`
(the quantizer's numeric bounds and the distance type are elided). -/
structure ScalarQuantizationStorage where
  quantizer : ScalarQuantizer
  offsets : List Nat
  chunks : List SQStorageChunk
deriving DecidableEq, Repr

/-- The loop of Rust `core`'s `slice::binary_search_by` (the branchless
`base`/`size` implementation): `base` moves to `mid` unless the probed
element is greater than the target; on exit the single remaining element is
compared to decide `Ok`/`Err`. -/
def binary_search_loop (a : List Nat) (target : Nat) : Nat → Nat → Nat → Except Nat Nat
  | base, size, fuel + 1 =>
    if 1 < size then
      binary_search_loop a target
        (if target < a.getD (base + size / 2) 0 then base else base + size / 2)
        (size - size / 2) fuel
    else
      if a.getD base 0 = target then .ok base
      else if a.getD base 0 < target then .error (base + 1)
      else .error base
  | base, _, 0 =>
    if a.getD base 0 = target then .ok base
    else if a.getD base 0 < target then .error (base + 1)
    else .error base

/-- Rust `slice::binary_search` on a `Vec<u32>`: `Ok(i)` when the target is
found at `i`, `Err(i)` with the insertion point otherwise.  The `while`
loop is run on `fuel = size` structural steps; `size` at least halves on
every iteration, so the fuel never runs out on the reachable states. -/
def binary_search (a : List Nat) (target : Nat) : Except Nat Nat :=
  if a.length = 0 then .error 0
  else binary_search_loop a target 0 a.length a.length

/-- `ScalarQuantizationStorage::chunk`: binary-search `offsets` for `id`;
an exact match at `o` selects `(offsets[o], chunks[o])`, an inexact result
selects `(offsets[o-1], chunks[o-1])`.  `none` models the panic of an
out-of-bounds `chunks[..]` index or of the `o - 1` usize underflow. -/
def ScalarQuantizationStorage.chunk (st : ScalarQuantizationStorage) (id : Nat) :
    Option (Nat × SQStorageChunk) :=
  match binary_search st.offsets id with
  | .ok o =>
    match st.offsets.get? o, st.chunks.get? o with
    | some off, some c => some (off, c)
    | _, _ => none
  | .error o =>
    if o = 0 then none
    else
      match st.offsets.get? (o - 1), st.chunks.get? (o - 1) with
      | some off, some c => some (off, c)
      | _, _ => none

/-- `VectorStore::len` for the SQ storage: `*self.offsets.last().unwrap()`.
`offsets` is never empty by construction, so the default never fires. -/
def ScalarQuantizationStorage.len (st : ScalarQuantizationStorage) : Nat :=
  st.offsets.getLastD 0

/-- `VectorStore::row_id` for the SQ storage: locate the chunk, then read
`chunk.row_id(id - offset)`; `none` models a panic in either step. -/
def ScalarQuantizationStorage.row_id (st : ScalarQuantizationStorage) (id : Nat) :
    Option Nat :=
  match st.chunk id with
  | none => none
  | some (off, c) => c.row_id (id - off)

/-- The `frag_reuse_index.remap_row_ids_record_batch` collaborator of
`ScalarQuantizationStorage::try_new`, abstracted as an optional pure
batch-to-batch function applied when present. -/
def apply_remap (remap : Option (SQRecordBatch → SQRecordBatch))
    (b : SQRecordBatch) : SQRecordBatch :=
  match remap with
  | some f => f b
  | none => b

/-- The loop body of `ScalarQuantizationStorage::try_new`: remap the batch
when a frag-reuse index is supplied, push `offsets.last().unwrap() +
batch.num_rows()` and the new chunk. -/
def try_new_step (remap : Option (SQRecordBatch → SQRecordBatch))
    (acc : List Nat × List SQStorageChunk) (b : SQRecordBatch) :
    List Nat × List SQStorageChunk :=
  (acc.1 ++ [acc.1.getLastD 0 + (apply_remap remap b).row_ids.length],
   acc.2 ++ [SQStorageChunk.new (apply_remap remap b)])

/-- `ScalarQuantizationStorage::try_new`: fold the batch iterator with
`try_new_step` starting from `offsets = [0]`, then read `chunks[0].dim()`
to build the quantizer.  The outer `Option` is the panic of that
`chunks[0]` index; the `Except` is the `Result` of the source (whose error
paths are unreachable in this typed model). -/
def ScalarQuantizationStorage.try_new (num_bits : Nat)
    (batches : List SQRecordBatch)
    (remap : Option (SQRecordBatch → SQRecordBatch)) :
    Option (Except Unit ScalarQuantizationStorage) :=
  let oc := batches.foldl (try_new_step remap) ([0], [])
  match oc.2.get? 0 with
  | none => none
  | some c0 =>
    some (.ok { quantizer := { num_bits := num_bits, dim := c0.dim },
                offsets := oc.1, chunks := oc.2 })

/-! ## PQ pre-filtering (`lance/src/index/vector/pq.rs`) -/

/-- Model of the arrow `take` kernel on a u64 array: gather by an index
list, returning an `ArrowError` when any index is out of bounds. -/
def arrow_take (values : List Nat) (indices : List Nat) : Except Unit (List Nat) :=
  if indices.all (fun i => i < values.length) then
    .ok (indices.map (fun i => values.getD i 0))
  else
    .error ()

/-- Rust `slice::chunks_exact(n)`: the complete length-`n` windows of the
list, the remainder discarded.  (`chunks_exact(0)` panics in Rust; the
source only calls it with `n = num_vectors ≠ 0`.) -/
def chunks_exact (n : Nat) (l : List Nat) : List (List Nat) :=
  if h : 0 < n ∧ n ≤ l.length then
    l.take n :: chunks_exact n (l.drop n)
  else
    []
termination_by l.length
decreasing_by simp; omega

/-- `PQIndex::filter_arrays`: when the row-id array is empty, return the
input pair unchanged; otherwise gather the kept row ids (arrow `take`) and
rebuild the transposed code array sub-vector by sub-vector.  The pre-filter
collaborator is abstracted as the function `filter_row_ids` from the row-id
list to the list of positions to keep. -/
def PQIndex.filter_arrays (filter_row_ids : List Nat → List Nat)
    (code : List Nat) (row_ids : List Nat) (num_sub_vectors : Nat) :
    Except Unit (List Nat × List Nat) :=
  let num_vectors := row_ids.length
  if num_vectors = 0 then
    .ok (code, row_ids)
  else
    let indices_to_keep := filter_row_ids row_ids
    match arrow_take row_ids indices_to_keep with
    | .error e => .error e
    | .ok new_row_ids =>
      let new_code := ((chunks_exact num_vectors code).map
        (fun c => indices_to_keep.map (fun idx => c.getD idx 0))).join
      .ok (new_code, new_row_ids)

/-! ## Chunked non-negative codec scheduling (`BitpackedForNonNegScheduler`) -/

/-- Half-open `Range<u64>`; `stop` models the `end` field (a Lean keyword). -/
structure URange where
  start : Nat
  stop : Nat
deriving DecidableEq, Repr

/-- `BitpackedForNonNegScheduler::locate_chunk_start`: byte offset of the
chunk containing `relative_row_num` (`ELEMS_PER_CHUNK = 1024` elements per
chunk, `1024 * compressed_bit_width / 8` bytes per chunk). -/
def locate_chunk_start (compressed_bit_width buffer_offset relative_row_num : Nat) : Nat :=
  let chunk_size := 1024 * compressed_bit_width / 8
  buffer_offset + relative_row_num / 1024 * chunk_size

/-- `BitpackedForNonNegScheduler::locate_chunk_end`: one past the last byte
of the chunk containing `relative_row_num`. -/
def locate_chunk_end (compressed_bit_width buffer_offset relative_row_num : Nat) : Nat :=
  let chunk_size := 1024 * compressed_bit_width / 8
  buffer_offset + relative_row_num / 1024 * chunk_size + chunk_size

/-- `byte_ranges.last_mut().unwrap().end = this_end`: overwrite the `end`
of the last accumulated byte range. -/
def set_last_stop : List URange → Nat → List URange
  | [], _ => []
  | [r], e => [{ r with stop := e }]
  | r :: rs, e => r :: set_last_stop rs e

/-- The loop of `BitpackedForNonNegScheduler::schedule_ranges` over the
logical ranges after the first, carrying the previous logical range
(`ranges[i - 1]`) and the accumulated byte ranges: coalesce into the last
byte range when the current range starts in the chunk holding the previous
range's last row, else push a fresh byte range. -/
def schedule_ranges_loop (b off : Nat) (prev : URange) (acc : List URange) :
    List URange → List URange
  | [] => acc
  | r :: rs =>
    let this_start := locate_chunk_start b off r.start
    let this_stop := locate_chunk_end b off (r.stop - 1)
    if this_start = locate_chunk_start b off (prev.stop - 1) then
      schedule_ranges_loop b off r (set_last_stop acc this_stop) rs
    else
      schedule_ranges_loop b off r (acc ++ [⟨this_start, this_stop⟩]) rs

/-- The byte ranges computed by `BitpackedForNonNegScheduler::schedule_ranges`
(the parallel `bytes_idx_to_range_indices` bookkeeping groups the same
decisions and is not needed by the claims in scope).  The source asserts the
logical range list is non-empty. -/
def schedule_ranges (b off : Nat) : List URange → List URange
  | [] => []
  | r :: rs =>
    schedule_ranges_loop b off r
      [⟨locate_chunk_start b off r.start, locate_chunk_end b off (r.stop - 1)⟩] rs

/-! ## Chunked non-negative encoder (`encode_fixed_width!` macro) -/

/-- Modelled from the spec: `BitPacking::unchecked_pack` (crate code in
`compression_algo::fastlanes`, not part of the source sample).  The spec
states each chunk "packs exactly 1024 values into `1024 * b / 8` bytes";
the kernel is modelled as packing the low `b` bits of each of the 1024
input words into a dense little-endian bitstream emitted as
`1024 * b / W` output words of `W` bits.  Only the output word count and
the dependence on the low `b` bits of the inputs matter to the claims in
scope. -/
def unchecked_pack (b W : Nat) (vals : List Nat) : List Nat :=
  (List.range (1024 * b / W)).map (fun i =>
    (List.range W).foldl (fun acc j =>
      acc + (Nat.testBit (vals.getD ((i * W + j) / b) 0) ((i * W + j) % b)).toNat * 2 ^ j) 0)

/-- The full-chunk loop of the `encode_fixed_width!` macro: the packed
words of the first `k` full 1024-element chunks, in order
(`BitPacking::unchecked_pack` on `input[i * 1024 ..][.. 1024]`). -/
def encode_full_chunks (b W : Nat) (input : List Nat) : Nat → List Nat
  | 0 => []
  | i + 1 => encode_full_chunks b W input i ++
      unchecked_pack b W ((input.drop (i * 1024)).take 1024)

/-- The `encode_fixed_width!` macro of `BitpackedForNonNegArrayEncoder`:
pack all full 1024-element chunks; when `num_values` is not a multiple of
1024, pack one final chunk holding the trailing `num_values % 1024` input
values zero-padded to 1024.  `input` is the typed view of the data buffer
(`W`-bit words), `num_values` the block's `num_values`; the output is the
packed `Vec` of `W`-bit words (the encoded byte buffer is its little-endian
reinterpretation, `W / 8` bytes per word, `packed_chunk_size =
1024 * b / W` words per chunk). -/
def encode_fixed_width (b W : Nat) (input : List Nat) (num_values : Nat) : List Nat :=
  let num_chunks := (num_values + 1023) / 1024
  let num_full_chunks := num_values / 1024
  let full := encode_full_chunks b W input num_full_chunks
  if num_chunks ≠ num_full_chunks then
    let last_chunk_elem_num := num_values % 1024
    let last_chunk :=
      ((input.drop (num_values - last_chunk_elem_num)).take last_chunk_elem_num)
        ++ List.replicate (1024 - last_chunk_elem_num) 0
    full ++ unchecked_pack b W last_chunk
  else
    full

/-! ## Bit-width analysis (`bitpack.rs`, `bitpack_params*`) -/

/-- Fuel-driven binary length: `bitLenGo f n` is the number of significant
binary digits of `n`, computed in `f` halving steps (exact whenever
`n < 2 ^ f`). -/
def bitLenGo : Nat → Nat → Nat
  | 0, _ => 0
  | f + 1, n => if n = 0 then 0 else bitLenGo f (n / 2) + 1

/-- Number of significant binary digits of a value of any Rust integer
width in scope (all widths are at most 64 bits).  `W - bitLen n` embeds the
`leading_zeros` intrinsic at width `W`. -/
def bitLen (n : Nat) : Nat := bitLenGo 64 n

/-- The `uN::leading_zeros` intrinsic at bit width `W`. -/
def leading_zeros (W n : Nat) : Nat := W - bitLen n

/-- Two's-complement representation of a signed value at bit width `W`. -/
def toUnsigned (W : Nat) (v : Int) : Nat := (v % ((2 : Int) ^ W)).toNat

/-- The `iN::leading_ones` intrinsic at bit width `W`: the leading zeros of
the bitwise complement of the two's-complement representation. -/
def leading_ones (W : Nat) (v : Int) : Nat :=
  W - bitLen (2 ^ W - 1 - toUnsigned W v)

/-- Struct `BitpackParams`: the bit count chosen for a page and whether a
sign bit is packed. -/
structure BitpackParams where
  num_bits : Nat
  signed : Bool
deriving DecidableEq, Repr

/-- Model of `arrow::compute::bit_or`: aggregate bitwise-or over the valid
values of a primitive array, `none` when the array is empty or all-null. -/
def arrow_bit_or (arr : List (Option Nat)) : Option Nat :=
  arr.foldl (fun acc v =>
    match acc, v with
    | none, none => none
    | none, some x => some x
    | some a, none => some a
    | some a, some x => some (a ||| x)) none

/-- `bitpack_params_for_type` (unsigned analyzer): bit width of the array =
`W - leading_zeros(bit_or(arr))`, floored at 1; `none` when `bit_or`
returns `none` (empty or all-null array).  `W` is the native bit width
(`byte_width * 8` in the source). -/
def bitpack_params_for_type (W : Nat) (arr : List (Option Nat)) : Option BitpackParams :=
  (arrow_bit_or arr).map (fun mx =>
    { num_bits := max (W - leading_zeros W mx) 1, signed := false })

/-- `bitpack_params_for_signed_type`: scan the array, tracking the minimum
of `leading_ones` (negative values) / `leading_zeros` (nonnegative values)
over the non-null elements, the accumulator seeded with `u64::MAX` at the
first non-null element; count `W` minus that minimum, plus one sign bit
when a negative value was seen; floor at 1 bit; `none` when the array is
empty or all-null. -/
def bitpack_params_for_signed_type (W : Nat) (arr : List (Option Int)) : Option BitpackParams :=
  let st := arr.foldl (fun (st : Bool × Option Nat) v =>
    match v with
    | none => st
    | some val =>
      let mlb := st.2.getD (2 ^ 64 - 1)
      if val < 0 then
        (true, some (min mlb (leading_ones W val)))
      else
        (st.1, some (min mlb (leading_zeros W val.toNat)))) (false, none)
  match st.2 with
  | none => none
  | some mlb =>
    let base := W - mlb
    let withSign := if st.1 then base + 1 else base
    some { num_bits := max withSign 1, signed := st.1 }

/-! ## Bit-granular packer (`pack_bits`) -/

/-- The mutable locals of `pack_bits`: the destination buffer with its
byte/bit cursors and the source cursor state.  Bytes are `Nat` kept below
256 with explicit `% 256` where the Rust `u8` arithmetic truncates. -/
structure PackState where
  dst : List Nat
  dst_idx : Nat
  dst_offset : Nat
  src_idx : Nat
  src_offset : Nat
  curr_src : Nat
  curr_mask : Nat
  src_bits_written : Nat
deriving Repr, DecidableEq

/-- The inner bit-copy loop of `pack_bits` (`while src_bits_written <
num_bits`): or the next slice of bits into the destination byte, advance
both cursors by `min(num_bits - written, 8 - src_offset, 8 - dst_offset)`;
on a full destination byte advance `dst_idx`; on a drained source byte
advance `src_idx`, shift the mask right by 8 and reload `curr_src`
(breaking at the end of the source).  Fuel-driven: every iteration writes
at least one bit, so `num_bits` steps always suffice. -/
def pack_bits_inner (src : List Nat) (num_bits : Nat) : Nat → PackState → PackState
  | 0, s => s
  | fuel + 1, s =>
    if s.src_bits_written < num_bits then
      let dst := s.dst.set s.dst_idx
        ((s.dst.getD s.dst_idx 0 +
          ((s.curr_src / 2 ^ s.src_offset) * 2 ^ s.dst_offset) % 256) % 256)
      let bits_written := min (num_bits - s.src_bits_written)
        (min (8 - s.src_offset) (8 - s.dst_offset))
      let src_bits_written := s.src_bits_written + bits_written
      let dst_offset := s.dst_offset + bits_written
      let src_offset := s.src_offset + bits_written
      let di := if dst_offset = 8 then (s.dst_idx + 1, 0) else (s.dst_idx, dst_offset)
      if src_offset = 8 then
        if s.src_idx + 1 = src.length then
          { dst, dst_idx := di.1, dst_offset := di.2, src_idx := s.src_idx + 1,
            src_offset := 0, curr_src := s.curr_src,
            curr_mask := s.curr_mask / 2 ^ 8, src_bits_written }
        else
          pack_bits_inner src num_bits fuel
            { dst, dst_idx := di.1, dst_offset := di.2, src_idx := s.src_idx + 1,
              src_offset := 0,
              curr_src := (src.getD (s.src_idx + 1) 0) &&& ((s.curr_mask / 2 ^ 8) % 256),
              curr_mask := s.curr_mask / 2 ^ 8, src_bits_written }
      else
        pack_bits_inner src num_bits fuel
          { dst, dst_idx := di.1, dst_offset := di.2, src_idx := s.src_idx,
            src_offset, curr_src := s.curr_src, curr_mask := s.curr_mask,
            src_bits_written }
    else s

/-- The outer per-value loop of `pack_bits` (`while src_idx < src.len()`):
mask the low bits of the current source byte, run the inner copy loop, then
— unless the whole buffer is exactly `num_bits` bits — advance `src_idx` by
`src.len() - ceil(num_bits, 8) + to_next_byte` (the `src.len()` here is the
whole buffer length, as in the source).  The usize subtraction is modelled
with truncating `Nat` subtraction; it cannot underflow for the inputs in
scope.  Fuel-driven with one step per outer iteration. -/
def pack_bits_outer (src : List Nat) (num_bits : Nat) : Nat → PackState → PackState
  | 0, s => s
  | fuel + 1, s =>
    if s.src_idx < src.length then
      let s1 := pack_bits_inner src num_bits num_bits
        { s with curr_mask := 2 ^ num_bits - 1,
                 curr_src := (src.getD s.src_idx 0) &&& ((2 ^ num_bits - 1) % 256),
                 src_offset := 0, src_bits_written := 0 }
      let s2 := if src.length * 8 ≠ num_bits then
          { s1 with src_idx := s1.src_idx +
              (src.length - (num_bits + 7) / 8 + (if num_bits % 8 = 0 then 0 else 1)) }
        else s1
      pack_bits_outer src num_bits fuel s2
    else s

/-- `BitpackedArrayEncoder::encode` on a fixed-width block: allocate
`ceil(num_values * num_bits / 8)` zeroed destination bytes and run
`pack_bits` over the block's data buffer (`src`, one byte per entry; for a
`u8` array the buffer holds exactly the array values), starting with
`dst_idx = dst_offset = 0`.  Returns the packed byte buffer. -/
def BitpackedArrayEncoder.encode (num_bits num_values : Nat) (src : List Nat) : List Nat :=
  (pack_bits_outer src num_bits src.length
    { dst := List.replicate ((num_values * num_bits + 7) / 8) 0,
      dst_idx := 0, dst_offset := 0, src_idx := 0, src_offset := 0,
      curr_src := 0, curr_mask := 0, src_bits_written := 0 }).dst

/-! ## Bit-granular unpacker (`BitpackedPageDecoder`) -/

/-- Struct `BufferStartOffset`. -/
structure BufferStartOffset where
  index : Nat
  bit_offset : Nat
deriving Repr, DecidableEq

/-- Enum `StartOffset`. -/
inductive StartOffset where
  | skipFull (rows : Nat)
  | skipSome (off : BufferStartOffset)
deriving Repr, DecidableEq

/-- `rows_in_buffer`: number of whole bitpacked values in a buffer, after
the start-bit offset and the unused tail behind the end-bit offset. -/
def rows_in_buffer (buffer_len bits_per_value buffer_start_bit_offset : Nat)
    (buffer_end_bit_offset : Option Nat) : Nat :=
  (buffer_len * 8 - buffer_start_bit_offset -
    (match buffer_end_bit_offset with
     | some e => 8 - e
     | none => 0)) / bits_per_value

/-- `compute_start_offset`: skip the whole buffer when it holds at most
`rows_to_skip` rows, else the byte index and bit offset of the first kept
value. -/
def compute_start_offset (rows_to_skip buffer_len bits_per_value
    buffer_start_bit_offset : Nat) (buffer_end_bit_offset : Option Nat) : StartOffset :=
  let rows := rows_in_buffer buffer_len bits_per_value buffer_start_bit_offset
    buffer_end_bit_offset
  if rows ≤ rows_to_skip then .skipFull rows
  else
    .skipSome { index := (rows_to_skip * bits_per_value + buffer_start_bit_offset) / 8,
                bit_offset := (rows_to_skip * bits_per_value + buffer_start_bit_offset) % 8 }

/-- `is_encoded_item_negative`: read the top (sign) bit of the packed value
that starts at bit `src_offset` of byte `src_idx` (when the value ends on a
byte boundary the sign bit is bit 7 of the previous byte). -/
def is_encoded_item_negative (src : List Nat) (src_idx src_offset num_bits : Nat) : Bool :=
  if (src_offset + num_bits) % 8 = 0 then
    decide (0 < (src.getD (src_idx + (src_offset + num_bits) / 8 - 1) 0) &&& 2 ^ 7)
  else
    decide (0 < (src.getD (src_idx + (src_offset + num_bits) / 8) 0) &&&
      2 ^ ((src_offset + num_bits) % 8 - 1))

/-- The mutable locals of the per-value copy in
`BitpackedPageDecoder::decode`. -/
structure DecodeState where
  dest : List Nat
  dst_idx : Nat
  dst_offset : Nat
  src_idx : Nat
  src_offset : Nat
  curr_src : Nat
  curr_mask : Nat
  src_bits_written : Nat
deriving Repr, DecidableEq

/-- The inner bit-copy loop of `BitpackedPageDecoder::decode`
(`while src_bits_written < bits_per_value`), the mirror of
`pack_bits_inner` except that `curr_mask` shifts right by `bits_written`
every iteration.  Fuel-driven; `bits_per_value` steps always suffice. -/
def decode_inner (src : List Nat) (bits_per_value : Nat) : Nat → DecodeState → DecodeState
  | 0, s => s
  | fuel + 1, s =>
    if s.src_bits_written < bits_per_value then
      let dest := s.dest.set s.dst_idx
        ((s.dest.getD s.dst_idx 0 +
          ((s.curr_src / 2 ^ s.src_offset) * 2 ^ s.dst_offset) % 256) % 256)
      let bits_written := min (bits_per_value - s.src_bits_written)
        (min (8 - s.src_offset) (8 - s.dst_offset))
      let src_bits_written := s.src_bits_written + bits_written
      let dst_offset := s.dst_offset + bits_written
      let src_offset := s.src_offset + bits_written
      let curr_mask := s.curr_mask / 2 ^ bits_written
      let di := if dst_offset = 8 then (s.dst_idx + 1, 0) else (s.dst_idx, dst_offset)
      if src_offset = 8 then
        if s.src_idx + 1 = src.length then
          { dest, dst_idx := di.1, dst_offset := di.2, src_idx := s.src_idx + 1,
            src_offset := 0, curr_src := s.curr_src, curr_mask, src_bits_written }
        else
          decode_inner src bits_per_value fuel
            { dest, dst_idx := di.1, dst_offset := di.2, src_idx := s.src_idx + 1,
              src_offset := 0, curr_src := (src.getD (s.src_idx + 1) 0) &&& (curr_mask % 256),
              curr_mask, src_bits_written }
      else
        decode_inner src bits_per_value fuel
          { dest, dst_idx := di.1, dst_offset := di.2, src_idx := s.src_idx,
            src_offset, curr_src := s.curr_src, curr_mask, src_bits_written }
    else s

/-- The sign-padding loop (`while dst_offset < 8 { dest[dst_idx] |= 1 <<
dst_offset; dst_offset += 1 }`); fuel 8 always suffices. -/
def pad_sign_bits : Nat → List Nat → Nat → Nat → List Nat
  | 0, dest, _, _ => dest
  | fuel + 1, dest, dst_idx, dst_offset =>
    if dst_offset < 8 then
      pad_sign_bits fuel (dest.set dst_idx ((dest.getD dst_idx 0) ||| 2 ^ dst_offset))
        dst_idx (dst_offset + 1)
    else dest

/-- `for i in dest.iter_mut().take(hi).skip(lo) { *i = 0xFF }`. -/
def fill_ff (dest : List Nat) (lo hi : Nat) : List Nat :=
  (List.range' lo (hi - lo)).foldl (fun d j => d.set j 255) dest

/-- The cross-row state of `BitpackedPageDecoder::decode` within one
buffer. -/
structure RowState where
  dest : List Nat
  dst_idx : Nat
  rows_taken : Nat
  src_idx : Nat
  src_offset : Nat
deriving Repr, DecidableEq

/-- The per-row loop of `BitpackedPageDecoder::decode` (`while src_idx <
src.len() && rows_taken < num_rows`): copy one value with `decode_inner`;
for signed negative values pad the tail of the partial destination byte
with ones; unless `bits_per_value` equals the uncompressed width, advance
`dst_idx` to the next uncompressed slot, writing `0xFF` into the remaining
slot bytes of a negative value; stop early past the buffer's end-bit
offset.  Fuel-driven; `num_rows` steps suffice since every iteration takes
one row. -/
def decode_rows (signed : Bool) (bits_per_value uncompressed_bits_per_value num_rows : Nat)
    (src : List Nat) (buffer_bit_end_offset : Option Nat) :
    Nat → RowState → RowState
  | 0, s => s
  | fuel + 1, s =>
    if s.src_idx < src.length ∧ s.rows_taken < num_rows then
      let curr_src := (src.getD s.src_idx 0) &&&
        (((2 ^ bits_per_value - 1) * 2 ^ s.src_offset) % 256)
      let is_negative := is_encoded_item_negative src s.src_idx s.src_offset bits_per_value
      let st := decode_inner src bits_per_value bits_per_value
        { dest := s.dest, dst_idx := s.dst_idx, dst_offset := 0,
          src_idx := s.src_idx, src_offset := s.src_offset,
          curr_src := curr_src, curr_mask := 2 ^ bits_per_value - 1,
          src_bits_written := 0 }
      let npcb := signed && is_negative && decide (0 < st.dst_offset)
      let dest2 := if npcb then pad_sign_bits 8 st.dest st.dst_idx st.dst_offset
        else st.dest
      let adv :=
        if uncompressed_bits_per_value ≠ bits_per_value then
          let next_dst_idx := st.dst_idx + uncompressed_bits_per_value / 8 -
            (bits_per_value + 7) / 8 + (if bits_per_value % 8 = 0 then 0 else 1)
          let dest3 :=
            if signed && is_negative then
              fill_ff (if npcb then dest2 else dest2.set st.dst_idx 255)
                (st.dst_idx + 1) next_dst_idx
            else dest2
          (dest3, next_dst_idx)
        else (dest2, st.dst_idx)
      let s2 : RowState :=
        { dest := adv.1, dst_idx := adv.2, rows_taken := s.rows_taken + 1,
          src_idx := st.src_idx, src_offset := st.src_offset }
      match buffer_bit_end_offset with
      | some e =>
        if st.src_idx = src.length - 1 ∧ e ≤ st.src_offset then s2
        else decode_rows signed bits_per_value uncompressed_bits_per_value num_rows
          src buffer_bit_end_offset fuel s2
      | none =>
        decode_rows signed bits_per_value uncompressed_bits_per_value num_rows
          src buffer_bit_end_offset fuel s2
    else s

/-- The cross-buffer state of `BitpackedPageDecoder::decode`. -/
structure DecodeAcc where
  dest : List Nat
  dst_idx : Nat
  rows_to_skip : Nat
  rows_taken : Nat
deriving Repr, DecidableEq

/-- The per-buffer loop of `BitpackedPageDecoder::decode`: each fetched
buffer comes with its start-bit offset and optional end-bit offset;
`SkipFull` deducts the buffer's rows from `rows_to_skip` (which, as in the
source, is not cleared after a `SkipSome` buffer), `SkipSome` positions the
source cursor and decodes rows. -/
def decode_buffers (signed : Bool)
    (bits_per_value uncompressed_bits_per_value num_rows : Nat) :
    List (List Nat × Nat × Option Nat) → DecodeAcc → DecodeAcc
  | [], acc => acc
  | (src, so, eo) :: rest, acc =>
    match compute_start_offset acc.rows_to_skip src.length bits_per_value so eo with
    | .skipFull r =>
      decode_buffers signed bits_per_value uncompressed_bits_per_value num_rows rest
        { acc with rows_to_skip := acc.rows_to_skip - r }
    | .skipSome off =>
      let st := decode_rows signed bits_per_value uncompressed_bits_per_value num_rows
        src eo num_rows
        { dest := acc.dest, dst_idx := acc.dst_idx, rows_taken := acc.rows_taken,
          src_idx := off.index, src_offset := off.bit_offset }
      decode_buffers signed bits_per_value uncompressed_bits_per_value num_rows rest
        { dest := st.dest, dst_idx := st.dst_idx, rows_to_skip := acc.rows_to_skip,
          rows_taken := st.rows_taken }

/-- `BitpackedPageDecoder::decode`: allocate `uncompressed_bits_per_value /
8 * num_rows` zeroed destination bytes and run the buffer loop.  `data`
pairs each fetched byte buffer with its start-bit offset and optional
end-bit offset (the fields `buffer_bit_start_offsets` and
`buffer_bit_end_offsets` of the decoder). -/
def BitpackedPageDecoder.decode (signed : Bool)
    (bits_per_value uncompressed_bits_per_value : Nat)
    (data : List (List Nat × Nat × Option Nat))
    (rows_to_skip num_rows : Nat) : List Nat :=
  (decode_buffers signed bits_per_value uncompressed_bits_per_value num_rows data
    { dest := List.replicate (uncompressed_bits_per_value / 8 * num_rows) 0,
      dst_idx := 0, rows_to_skip := rows_to_skip, rows_taken := 0 }).dest

/-- Little-endian byte list of length `n` for the value `v`. -/
def nat_to_le_bytes (n v : Nat) : List Nat :=
  (List.range n).map (fun j => v / 2 ^ (8 * j) % 256)

/-- Sign extension of a `b`-bit stored value into a `W`-bit slot: the low
`b` bits of the value with every higher bit set to one. -/
def sign_extend (b W v : Nat) : Nat := v % 2 ^ b + (2 ^ W - 2 ^ b)

/-- Cumulative offsets of a list of chunk sizes starting at `acc`:
`[acc, acc + n0, acc + n0 + n1, ...]` — the shape of the `offsets` vector
that `ScalarQuantizationStorage::try_new` builds; used to state its
structure. -/
def cum_offsets (acc : Nat) : List Nat → List Nat
  | [] => [acc]
  | n :: ns => acc :: cum_offsets (acc + n) ns

/-! ## Claim C8 -/

/-- Claim C8: for every pre-filter, applying `PQIndex::filter_arrays` to an
empty PQ code array and an empty row-id array succeeds (returns `Ok`, no
error) and yields an empty code array and an empty row-id array. -/
theorem C8_filter_arrays_empty (filter_row_ids : List Nat → List Nat)
    (num_sub_vectors : Nat) :
    PQIndex.filter_arrays filter_row_ids [] [] num_sub_vectors = .ok ([], []) := rfl

/-! ## Claim C9 -/

/-- Claim C9: `ScalarQuantizationStorage::try_new` requires at least one
batch — on an empty batch iterator it panics (indexing `chunks[0]` to
compute `dim`) instead of returning an error `Result`. -/
theorem C9_try_new_empty_panics (num_bits : Nat)
    (remap : Option (SQRecordBatch → SQRecordBatch)) :
    ScalarQuantizationStorage.try_new num_bits [] remap = none := rfl

/-! ## Binary-length lemmas -/

theorem bitLenGo_le {f n k : Nat} (h : n < 2 ^ f) : bitLenGo f n ≤ k ↔ n < 2 ^ k := by
  induction f generalizing n k with
  | zero =>
    have hn : n = 0 := by simpa using h
    subst hn
    simpa [bitLenGo] using Nat.pos_pow_of_pos k (by norm_num)
  | succ f ih =>
    by_cases hn : n = 0
    · subst hn
      simpa [bitLenGo] using Nat.pos_pow_of_pos k (by norm_num)
    · simp only [bitLenGo, if_neg hn]
      have hs : 2 ^ (f + 1) = 2 ^ f * 2 := Nat.pow_succ ..
      have h2 : n / 2 < 2 ^ f := by omega
      cases k with
      | zero =>
        simp only [Nat.pow_zero]
        constructor
        · intro hk; omega
        · intro hk; omega
      | succ k =>
        have hk2 : 2 ^ (k + 1) = 2 ^ k * 2 := Nat.pow_succ ..
        rw [Nat.succ_le_succ_iff, ih h2]
        omega

theorem bitLen_le {n k : Nat} (h : n < 2 ^ 64) : bitLen n ≤ k ↔ n < 2 ^ k :=
  bitLenGo_le h

theorem bitLen_le_width {W n : Nat} (hW : W ≤ 64) (h : n < 2 ^ W) : bitLen n ≤ W :=
  (bitLen_le (lt_of_lt_of_le h (Nat.pow_le_pow_right (by norm_num) hW))).mpr h

theorem bitLen_pos {n : Nat} (hn : n ≠ 0) (h : n < 2 ^ 64) : 1 ≤ bitLen n := by
  by_contra hc
  have h0 : bitLen n ≤ 0 := by omega
  have := (bitLen_le h).mp h0
  simp at this
  omega

theorem le_or_left (a b : Nat) : a ≤ a ||| b := by
  apply Nat.le_of_testBit
  intro i hi
  simp [Nat.testBit_or, hi]

theorem bitLen_or {a b : Nat} (ha : a < 2 ^ 64) (hb : b < 2 ^ 64) :
    bitLen (a ||| b) = max (bitLen a) (bitLen b) := by
  have hab : a ||| b < 2 ^ 64 := Nat.or_lt_two_pow ha hb
  apply Nat.le_antisymm
  · rw [bitLen_le hab]
    exact Nat.or_lt_two_pow ((bitLen_le ha).mp (Nat.le_max_left _ _))
      ((bitLen_le hb).mp (Nat.le_max_right _ _))
  · have hor : a ||| b < 2 ^ bitLen (a ||| b) := (bitLen_le hab).mp le_rfl
    apply Nat.max_le.mpr
    constructor
    · exact (bitLen_le ha).mpr (lt_of_le_of_lt (le_or_left a b) hor)
    · exact (bitLen_le hb).mpr (lt_of_le_of_lt (by rw [Nat.or_comm]; exact le_or_left b a) hor)

/-! ## Claim C6 -/

theorem arrow_bit_or_some (arr : List (Option Nat)) (a : Nat) :
    arr.foldl (fun acc v =>
      match acc, v with
      | none, none => none
      | none, some x => some x
      | some a, none => some a
      | some a, some x => some (a ||| x)) (some a) =
      some (arr.foldl (fun acc v => acc ||| v.getD 0) a) := by
  induction arr generalizing a with
  | nil => rfl
  | cons x rest ih =>
    cases x with
    | none => simpa using ih a
    | some v => simpa using ih (a ||| v)

theorem arrow_bit_or_none_iff (arr : List (Option Nat)) :
    arrow_bit_or arr = none ↔ ∀ x ∈ arr, x = none := by
  induction arr with
  | nil => simp [arrow_bit_or]
  | cons x rest ih =>
    cases x with
    | none =>
      simp only [arrow_bit_or, List.foldl_cons] at *
      simpa using ih
    | some v =>
      simp only [arrow_bit_or, List.foldl_cons]
      rw [arrow_bit_or_some]
      simp

theorem arrow_bit_or_of_mem {arr : List (Option Nat)} {v : Nat} (hv : some v ∈ arr) :
    arrow_bit_or arr = some (arr.foldl (fun acc x => acc ||| x.getD 0) 0) := by
  induction arr with
  | nil => simp at hv
  | cons x rest ih =>
    cases x with
    | none =>
      simp only [List.mem_cons, reduceCtorEq, false_or] at hv
      simp only [arrow_bit_or, List.foldl_cons] at *
      simpa using ih hv
    | some w =>
      simp only [arrow_bit_or, List.foldl_cons]
      rw [arrow_bit_or_some]
      simp

/-- Claim C6: for every unsigned integer array, the unsigned bit-width
analyzer returns `max(1, W - leading_zeros(bitwise-or of all elements))`,
and returns `None` exactly when the array is empty or all elements are
null. -/
theorem C6_bitpack_params_for_type (W : Nat) (arr : List (Option Nat)) :
    (bitpack_params_for_type W arr = none ↔ ∀ x ∈ arr, x = none) ∧
    ((∃ v, some v ∈ arr) →
      bitpack_params_for_type W arr =
        some { num_bits :=
                 max 1 (W - leading_zeros W
                   (arr.foldl (fun acc x => acc ||| x.getD 0) 0)),
               signed := false }) := by
  constructor
  · rw [← arrow_bit_or_none_iff]
    unfold bitpack_params_for_type
    cases arrow_bit_or arr <;> simp
  · rintro ⟨v, hv⟩
    unfold bitpack_params_for_type
    rw [arrow_bit_or_of_mem hv]
    simp [Nat.max_comm]

theorem C6_witness :
    bitpack_params_for_type 8 [some 5, none] =
      some { num_bits :=
               max 1 (8 - leading_zeros 8
                 ([some 5, none].foldl (fun acc x => acc ||| x.getD 0) 0)),
             signed := false } :=
  (C6_bitpack_params_for_type 8 [some 5, none]).2 ⟨5, by simp⟩

/-! ## Claim C5 -/

theorem foldl_min_le_seed (l : List Int) (g : Int → Nat) (a : Nat) :
    l.foldl (fun acc v => min acc (g v)) a ≤ a := by
  induction l generalizing a with
  | nil => simp
  | cons x rest ih => exact le_trans (ih _) (Nat.min_le_left _ _)

theorem foldl_min_le_mem {l : List Int} {x : Int} (hx : x ∈ l) (g : Int → Nat) (a : Nat) :
    l.foldl (fun acc v => min acc (g v)) a ≤ g x := by
  induction l generalizing a with
  | nil => simp at hx
  | cons y rest ih =>
    rcases List.mem_cons.mp hx with h | h
    · subst h
      exact le_trans (foldl_min_le_seed rest g _) (Nat.min_le_right _ _)
    · exact ih h _

theorem signed_fold_some (W : Nat) (vals : List Int) (b : Bool) (a : Nat) :
    (vals.map some).foldl (fun (st : Bool × Option Nat) v =>
      match v with
      | none => st
      | some val =>
        let mlb := st.2.getD (2 ^ 64 - 1)
        if val < 0 then
          (true, some (min mlb (leading_ones W val)))
        else
          (st.1, some (min mlb (leading_zeros W val.toNat)))) (b, some a) =
      (b || vals.any (fun v => decide (v < 0)),
       some (vals.foldl (fun acc v =>
         min acc (if v < 0 then leading_ones W v else leading_zeros W v.toNat)) a)) := by
  induction vals generalizing b a with
  | nil => simp
  | cons v rest ih =>
    by_cases hv : v < 0
    · simp only [List.map_cons, List.foldl_cons, List.any_cons, if_pos hv,
        Option.getD_some, decide_eq_true hv]
      rw [ih]
      simp
    · simp only [List.map_cons, List.foldl_cons, List.any_cons, if_neg hv,
        Option.getD_some, decide_eq_false hv]
      rw [ih]
      simp

theorem leading_le_W (W : Nat) (v : Int) :
    (if v < 0 then leading_ones W v else leading_zeros W v.toNat) ≤ W := by
  unfold leading_ones leading_zeros
  split <;> exact Nat.sub_le _ _

theorem bitpack_params_for_signed_type_cons (W : Nat) (hW : W ≤ 64)
    (v0 : Int) (rest : List Int) :
    bitpack_params_for_signed_type W ((v0 :: rest).map some) =
      some { num_bits := max
               ((W - rest.foldl (fun acc v => min acc
                   (if v < 0 then leading_ones W v else leading_zeros W v.toNat))
                   (if v0 < 0 then leading_ones W v0 else leading_zeros W v0.toNat)) +
                 (if (v0 :: rest).any (fun v => decide (v < 0)) then 1 else 0)) 1,
             signed := (v0 :: rest).any (fun v => decide (v < 0)) } := by
  have hmin : ∀ v : Int, min (2 ^ 64 - 1)
      (if v < 0 then leading_ones W v else leading_zeros W v.toNat) =
      (if v < 0 then leading_ones W v else leading_zeros W v.toNat) := by
    intro v
    exact Nat.min_eq_right (le_trans (leading_le_W W v) (by omega))
  unfold bitpack_params_for_signed_type
  rw [List.map_cons, List.foldl_cons]
  by_cases hv0 : v0 < 0
  · simp only [Option.getD_none, if_pos hv0]
    rw [show min (2 ^ 64 - 1) (leading_ones W v0) =
        (if v0 < 0 then leading_ones W v0 else leading_zeros W v0.toNat) from by
      rw [if_pos hv0]; exact (by simpa [hv0] using hmin v0)]
    rw [signed_fold_some]
    simp [List.any_cons, hv0]
  · simp only [Option.getD_none, if_neg hv0]
    rw [show min (2 ^ 64 - 1) (leading_zeros W v0.toNat) =
        (if v0 < 0 then leading_ones W v0 else leading_zeros W v0.toNat) from by
      rw [if_neg hv0]; exact (by simpa [hv0] using hmin v0)]
    rw [signed_fold_some]
    simp only [List.any_cons, decide_eq_false hv0, Bool.false_or, if_neg hv0]
    congr 1
    split <;> simp

theorem foldl_or_lt {W : Nat} (l : List Int) (a : Nat) (ha : a < 2 ^ W)
    (hl : ∀ v ∈ l, v.toNat < 2 ^ W) :
    l.foldl (fun acc v => acc ||| v.toNat) a < 2 ^ W := by
  induction l generalizing a with
  | nil => simpa
  | cons x rest ih =>
    simp only [List.foldl_cons]
    exact ih _ (Nat.or_lt_two_pow ha (hl x (by simp))) (fun v hv => hl v (by simp [hv]))

theorem foldl_min_lz_eq {W : Nat} (hW : W ≤ 64) (l : List Int) (a : Nat)
    (haW : a < 2 ^ W) (hl : ∀ v ∈ l, v.toNat < 2 ^ W) :
    l.foldl (fun acc v => min acc (W - bitLen v.toNat)) (W - bitLen a) =
      W - bitLen (l.foldl (fun acc v => acc ||| v.toNat) a) := by
  have hpow : (2 : Nat) ^ W ≤ 2 ^ 64 := Nat.pow_le_pow_right (by norm_num) hW
  induction l generalizing a with
  | nil => simp
  | cons x rest ih =>
    simp only [List.foldl_cons]
    have hx : x.toNat < 2 ^ W := hl x (by simp)
    have ha64 : a < 2 ^ 64 := lt_of_lt_of_le haW hpow
    have hx64 : x.toNat < 2 ^ 64 := lt_of_lt_of_le hx hpow
    have hba : bitLen a ≤ W := bitLen_le_width hW haW
    have hbx : bitLen x.toNat ≤ W := bitLen_le_width hW hx
    have hmin : min (W - bitLen a) (W - bitLen x.toNat) =
        W - bitLen (a ||| x.toNat) := by
      rw [bitLen_or ha64 hx64]
      rcases Nat.le_total (bitLen a) (bitLen x.toNat) with h | h
      · rw [Nat.max_eq_right h, Nat.min_eq_right (Nat.sub_le_sub_left h W)]
      · rw [Nat.max_eq_left h, Nat.min_eq_left (Nat.sub_le_sub_left h W)]
    rw [hmin]
    exact ih _ (Nat.or_lt_two_pow haW hx) (fun v hv => hl v (by simp [hv]))

theorem leading_eq_W_of_zero_or_neg_one (W : Nat) (v : Int) (hv : v = 0 ∨ v = -1) :
    (if v < 0 then leading_ones W v else leading_zeros W v.toNat) = W := by
  have hb0 : bitLen 0 = 0 := rfl
  rcases hv with rfl | rfl
  · rw [if_neg (by norm_num)]
    unfold leading_zeros
    rw [show (0 : Int).toNat = 0 from rfl, hb0, Nat.sub_zero]
  · rw [if_pos (by norm_num)]
    unfold leading_ones
    have hcast : ((2 ^ W : Nat) : Int) = (2 : Int) ^ W := by push_cast; ring
    have hp : (1 : Nat) ≤ 2 ^ W := Nat.one_le_two_pow
    have hT : toUnsigned W (-1) = 2 ^ W - 1 := by
      unfold toUnsigned
      have h0 : (-1 : Int) % 2 ^ W = (-1 + 2 ^ W * 1) % 2 ^ W :=
        (Int.add_mul_emod_self_left (a := -1) (b := (2 : Int) ^ W) (c := 1)).symm
      rw [h0, Int.emod_eq_of_lt (by omega) (by omega)]
      omega
    rw [hT, Nat.sub_self, hb0, Nat.sub_zero]

theorem foldl_min_eq_W (W : Nat) (l : List Int) (f : Int → Nat)
    (hf : ∀ v ∈ l, f v = W) :
    l.foldl (fun acc v => min acc (f v)) W = W := by
  induction l with
  | nil => rfl
  | cons x rest ih =>
    simp only [List.foldl_cons]
    rw [hf x (List.mem_cons_self x rest), Nat.min_self]
    exact ih (fun v hv => hf v (List.mem_cons_of_mem x hv))

/-- Counterexample to claim C5 as stated: the one-element `Int8` array
`[-1]` contains a negative value, yet `bitpack_params_for_signed_type`
returns `num_bits = 1` (the leading-ones count of `-1` is the full width,
so zero significant bits remain and only the sign bit is counted). -/
theorem C5_counterexample :
    bitpack_params_for_signed_type 8 [some (-1)] =
      some { num_bits := 1, signed := true } ∧ ¬ (2 ≤ 1) := by
  constructor
  · decide
  · omega

theorem toNat_lt_pow {W : Nat} {v : Int} (h : v < 2 ^ (W - 1)) : v.toNat < 2 ^ W := by
  have hcast : ((2 ^ (W - 1) : Nat) : Int) = (2 : Int) ^ (W - 1) := by push_cast; ring
  have hp : 0 < (2 : Nat) ^ (W - 1) := Nat.pos_pow_of_pos _ (by norm_num)
  have h1 : v.toNat < 2 ^ (W - 1) := by omega
  exact lt_of_lt_of_le h1 (Nat.pow_le_pow_right (by norm_num) (Nat.sub_le _ _))

theorem leading_le_W_sub_one {W : Nat} (hW8 : 8 ≤ W) (hW64 : W ≤ 64) {v : Int}
    (hlo : -(2 ^ (W - 1) : Int) ≤ v) (hhi : v < 2 ^ (W - 1))
    (h0 : v ≠ 0) (hm1 : v ≠ -1) :
    (if v < 0 then leading_ones W v else leading_zeros W v.toNat) ≤ W - 1 := by
  have hpow64 : (2 : Nat) ^ W ≤ 2 ^ 64 := Nat.pow_le_pow_right (by norm_num) hW64
  have hcast : ((2 ^ W : Nat) : Int) = (2 : Int) ^ W := by push_cast; ring
  have hcastw : ((2 ^ (W - 1) : Nat) : Int) = (2 : Int) ^ (W - 1) := by push_cast; ring
  have hWpow : (2 : Nat) ^ (W - 1) ≤ 2 ^ W := Nat.pow_le_pow_right (by norm_num) (Nat.sub_le _ _)
  have h2W : (2 : Nat) ≤ 2 ^ W :=
    le_trans (by norm_num) (Nat.pow_le_pow_right (by norm_num) (by omega : 1 ≤ W))
  by_cases hv : v < 0
  · rw [if_pos hv]
    unfold leading_ones
    have hmod0 : (v + (2 : Int) ^ W) % (2 : Int) ^ W = v % (2 : Int) ^ W := by
      simpa using Int.add_mul_emod_self_left (a := v) (b := (2 : Int) ^ W) (c := 1)
    have hple : (2 : Int) ^ (W - 1) ≤ 2 ^ W := by
      rw [← hcast, ← hcastw]
      exact_mod_cast hWpow
    have h1 : (0 : Int) ≤ v + 2 ^ W := by omega
    have h2 : v + (2 : Int) ^ W < 2 ^ W := by omega
    have hmod : v % ((2 : Int) ^ W) = v + 2 ^ W := by
      rw [← hmod0, Int.emod_eq_of_lt h1 h2]
    have hvle : v ≤ -2 := by omega
    have htU : toUnsigned W v ≤ 2 ^ W - 2 := by
      unfold toUnsigned
      rw [hmod]
      omega
    have hc1 : 2 ^ W - 1 - toUnsigned W v ≠ 0 := by omega
    have hc64 : 2 ^ W - 1 - toUnsigned W v < 2 ^ 64 := by omega
    have := bitLen_pos hc1 hc64
    omega
  · rw [if_neg hv]
    unfold leading_zeros
    have hv1 : v.toNat ≠ 0 := by omega
    have hv64 : v.toNat < 2 ^ 64 :=
      lt_of_lt_of_le (toNat_lt_pow hhi) hpow64
    have := bitLen_pos hv1 hv64
    omega

/-- Claim C5 (amended): for every non-empty signed integer array with no
nulls, if the array contains any negative value then the analyzer reports
`signed = true` and `num_bits ≥ 1`, with `num_bits ≥ 2` whenever some
element is neither `0` nor `-1` and exactly `num_bits = 1` when every
element is `0` or `-1` (see the counterexample); if every value is
nonnegative it reports exactly what the unsigned analyzer reports on the
same values (in particular `signed = false`). -/
theorem C5_bitpack_params_signed (W : Nat) (vals : List Int)
    (hW : W = 8 ∨ W = 16 ∨ W = 32 ∨ W = 64)
    (hrange : ∀ v ∈ vals, -(2 ^ (W - 1) : Int) ≤ v ∧ v < 2 ^ (W - 1))
    (hne : vals ≠ []) :
    ((∃ v ∈ vals, v < 0) →
      ∃ p, bitpack_params_for_signed_type W (vals.map some) = some p ∧
        p.signed = true ∧ 1 ≤ p.num_bits ∧
        ((∃ v ∈ vals, v ≠ 0 ∧ v ≠ -1) → 2 ≤ p.num_bits) ∧
        ((∀ v ∈ vals, v = 0 ∨ v = -1) → p.num_bits = 1)) ∧
    ((∀ v ∈ vals, 0 ≤ v) →
      bitpack_params_for_signed_type W (vals.map some) =
        bitpack_params_for_type W (vals.map (fun v => some v.toNat))) := by
  have hW64 : W ≤ 64 := by rcases hW with h | h | h | h <;> omega
  have hW8 : 8 ≤ W := by rcases hW with h | h | h | h <;> omega
  obtain ⟨v0, rest, rfl⟩ : ∃ v0 rest, vals = v0 :: rest := by
    cases vals with
    | nil => exact absurd rfl hne
    | cons a l => exact ⟨a, l, rfl⟩
  rw [bitpack_params_for_signed_type_cons W hW64]
  constructor
  · rintro ⟨v, hvmem, hvneg⟩
    have hany : (v0 :: rest).any (fun v => decide (v < 0)) = true :=
      List.any_eq_true.mpr ⟨v, hvmem, by simpa using hvneg⟩
    refine ⟨_, rfl, by simp [hany], le_max_right _ _, ?_, ?_⟩
    · rintro ⟨u, humem, hu0, hum1⟩
      have hu := hrange u humem
      have hfu : (if u < 0 then leading_ones W u else leading_zeros W u.toNat) ≤ W - 1 :=
        leading_le_W_sub_one hW8 hW64 hu.1 hu.2 hu0 hum1
      have hM : (rest.foldl (fun acc v => min acc
          (if v < 0 then leading_ones W v else leading_zeros W v.toNat))
          (if v0 < 0 then leading_ones W v0 else leading_zeros W v0.toNat)) ≤ W - 1 := by
        rcases List.mem_cons.mp humem with h | h
        · subst h
          exact le_trans (foldl_min_le_seed _ _ _) hfu
        · exact le_trans (foldl_min_le_mem h _ _) hfu
      simp only [hany, if_true]
      have h1 : 1 ≤ W - (rest.foldl (fun acc v => min acc
          (if v < 0 then leading_ones W v else leading_zeros W v.toNat))
          (if v0 < 0 then leading_ones W v0 else leading_zeros W v0.toNat)) := by omega
      calc (2 : Nat) ≤ W - (rest.foldl (fun acc v => min acc
              (if v < 0 then leading_ones W v else leading_zeros W v.toNat))
              (if v0 < 0 then leading_ones W v0 else leading_zeros W v0.toNat)) + 1 := by omega
        _ ≤ _ := le_max_left _ _
    · intro hall
      have hseed : (if v0 < 0 then leading_ones W v0 else leading_zeros W v0.toNat) = W :=
        leading_eq_W_of_zero_or_neg_one W v0 (hall v0 (by simp))
      have hM : (rest.foldl (fun acc v => min acc
          (if v < 0 then leading_ones W v else leading_zeros W v.toNat))
          (if v0 < 0 then leading_ones W v0 else leading_zeros W v0.toNat)) = W := by
        rw [hseed]
        exact foldl_min_eq_W W rest _
          (fun v hv => leading_eq_W_of_zero_or_neg_one W v (hall v (by simp [hv])))
      simp only [hany, if_true, hM]
      omega
  · intro hpos
    have hany : (v0 :: rest).any (fun v => decide (v < 0)) = false := by
      simp only [List.any_eq_false]
      intro v hv
      simpa using not_lt.mpr (hpos v hv)
    have hv0pos : (0 : Int) ≤ v0 := hpos v0 (by simp)
    have hl : ∀ v ∈ rest, v.toNat < 2 ^ W := fun v hv =>
      toNat_lt_pow (hrange v (by simp [hv])).2
    have hv0W : v0.toNat < 2 ^ W := toNat_lt_pow (hrange v0 (by simp)).2
    have hseed : (if v0 < 0 then leading_ones W v0 else leading_zeros W v0.toNat) =
        W - bitLen v0.toNat := by
      rw [if_neg (not_lt.mpr hv0pos)]
      rfl
    have hfun : rest.foldl (fun acc v => min acc
          (if v < 0 then leading_ones W v else leading_zeros W v.toNat))
          (W - bitLen v0.toNat) =
        rest.foldl (fun acc v => min acc (W - bitLen v.toNat)) (W - bitLen v0.toNat) :=
      List.foldl_ext _ _ _ (fun a v hv => by
        simp only [if_neg (not_lt.mpr (hpos v (by simp [hv])))]
        rfl)
    rw [hany, hseed, hfun, foldl_min_lz_eq hW64 rest v0.toNat hv0W hl]
    unfold bitpack_params_for_type
    rw [arrow_bit_or_of_mem (v := v0.toNat) (by simp)]
    simp only [List.foldl_map, List.foldl_cons, Option.getD_some, Option.map_some,
      Nat.zero_or, Nat.add_zero]
    simp [leading_zeros]

theorem C5_witness :
    (∃ p, bitpack_params_for_signed_type 8 ([1, 2, -7].map some) = some p ∧
      p.signed = true ∧ 2 ≤ p.num_bits) ∧
    (∃ q, bitpack_params_for_signed_type 8 ([0, -1].map some) = some q ∧
      q.signed = true ∧ q.num_bits = 1) := by
  constructor
  · obtain ⟨p, hp, hs, h1, h2, h3⟩ :=
      (C5_bitpack_params_signed 8 [1, 2, -7] (Or.inl rfl) (by decide) (by decide)).1
        ⟨-7, by decide, by decide⟩
    exact ⟨p, hp, hs, h2 ⟨-7, by decide, by decide, by decide⟩⟩
  · obtain ⟨q, hq, hs, h1, h2, h3⟩ :=
      (C5_bitpack_params_signed 8 [0, -1] (Or.inl rfl) (by decide) (by decide)).1
        ⟨-1, by decide, by decide⟩
    exact ⟨q, hq, hs, h3 (by decide)⟩

/-! ## Claim C3 -/

theorem schedule_ranges_loop_append (b off : Nat) (r : URange) :
    ∀ (rest : List URange) (prev : URange) (acc : List URange),
    schedule_ranges_loop b off prev acc (rest ++ [r]) =
      (if locate_chunk_start b off r.start =
          locate_chunk_start b off ((rest.getLastD prev).stop - 1) then
        set_last_stop (schedule_ranges_loop b off prev acc rest)
          (locate_chunk_end b off (r.stop - 1))
      else
        schedule_ranges_loop b off prev acc rest ++
          [⟨locate_chunk_start b off r.start, locate_chunk_end b off (r.stop - 1)⟩]) := by
  intro rest
  induction rest with
  | nil =>
    intro prev acc
    simp [schedule_ranges_loop]
  | cons x xs ih =>
    intro prev acc
    rw [List.cons_append]
    show schedule_ranges_loop b off prev acc (x :: (xs ++ [r])) = _
    rw [schedule_ranges_loop]
    rw [show schedule_ranges_loop b off prev acc (x :: xs) =
        (if locate_chunk_start b off x.start =
            locate_chunk_start b off (prev.stop - 1) then
          schedule_ranges_loop b off x (set_last_stop acc
            (locate_chunk_end b off (x.stop - 1))) xs
        else
          schedule_ranges_loop b off x (acc ++
            [⟨locate_chunk_start b off x.start, locate_chunk_end b off (x.stop - 1)⟩]) xs)
      from rfl]
    rw [List.getLastD_cons]
    split
    · exact ih x _
    · exact ih x _

/-- Claim C3: the I/O range planner coalesces a logical range into the
previous byte range iff `chunk_start(range.start) =
chunk_start(previous_range.end - 1)` (updating the previous byte range's
end to `chunk_end(range.end - 1)`), and otherwise appends a new byte range
`[chunk_start(range.start), chunk_end(range.end - 1))`; in particular the
ranges `[0..100), [100..1100), [1100..1200)` with `b = 8`,
`buffer_offset = 0` produce the single byte range `[0, 2048)`. -/
theorem C3_schedule_ranges (b off : Nat) :
    (∀ (rs : List URange) (r : URange), rs ≠ [] →
      schedule_ranges b off (rs ++ [r]) =
        (if locate_chunk_start b off r.start =
            locate_chunk_start b off ((rs.getLastD ⟨0, 0⟩).stop - 1) then
          set_last_stop (schedule_ranges b off rs)
            (locate_chunk_end b off (r.stop - 1))
        else
          schedule_ranges b off rs ++
            [⟨locate_chunk_start b off r.start, locate_chunk_end b off (r.stop - 1)⟩])) ∧
    schedule_ranges 8 0 [⟨0, 100⟩, ⟨100, 1100⟩, ⟨1100, 1200⟩] = [⟨0, 2048⟩] := by
  constructor
  · intro rs r hne
    obtain ⟨r0, rest, rfl⟩ : ∃ r0 rest, rs = r0 :: rest := by
      cases rs with
      | nil => exact absurd rfl hne
      | cons a l => exact ⟨a, l, rfl⟩
    rw [List.cons_append]
    show schedule_ranges_loop b off r0 _ (rest ++ [r]) = _
    rw [schedule_ranges_loop_append b off r rest r0]
    rw [List.getLastD_cons]
    rfl
  · decide

theorem C3_witness :
    schedule_ranges 8 0 ([⟨0, 100⟩] ++ [⟨100, 1100⟩]) =
      set_last_stop (schedule_ranges 8 0 [⟨0, 100⟩]) (locate_chunk_end 8 0 (1100 - 1)) := by
  rw [(C3_schedule_ranges 8 0).1 [⟨0, 100⟩] ⟨100, 1100⟩ (by decide)]
  decide

/-! ## Claim C2 -/

theorem unchecked_pack_length (b W : Nat) (vals : List Nat) :
    (unchecked_pack b W vals).length = 1024 * b / W := by
  simp [unchecked_pack]

theorem encode_full_chunks_length (b W : Nat) (input : List Nat) :
    ∀ k, (encode_full_chunks b W input k).length = k * (1024 * b / W) := by
  intro k
  induction k with
  | zero => simp [encode_full_chunks]
  | succ i ih =>
    simp only [encode_full_chunks, List.length_append, ih, unchecked_pack_length]
    ring

/-- Claim C2: for every input of `N` values of element width
`W ∈ {8, 16, 32, 64}` bits and every target bit width `1 ≤ b ≤ W`, the
chunked non-negative encoder produces exactly
`⌈N / 1024⌉ * (1024 * b / 8)` output bytes, and when `N` is not a multiple
of 1024 the final chunk is the packing of the trailing `N % 1024` values
zero-padded at positions `N % 1024 .. 1024`; e.g. 2048 `u32` values at
`b = 11` encode to 2816 bytes (see the witness). -/
theorem C2_encode_fixed_width_size (b W N : Nat) (input : List Nat)
    (hW : W = 8 ∨ W = 16 ∨ W = 32 ∨ W = 64)
    (hb1 : 1 ≤ b) (hbW : b ≤ W) (hlen : input.length = N) :
    (encode_fixed_width b W input N).length * (W / 8) =
      ((N + 1023) / 1024) * (1024 * b / 8) ∧
    (N % 1024 ≠ 0 →
      (encode_fixed_width b W input N).drop (N / 1024 * (1024 * b / W)) =
        unchecked_pack b W ((input.drop (N - N % 1024)).take (N % 1024)
          ++ List.replicate (1024 - N % 1024) 0)) := by
  have hsz : (1024 * b / W) * (W / 8) = 1024 * b / 8 := by
    rcases hW with h | h | h | h <;> subst h <;> omega
  by_cases hmod : N % 1024 = 0
  · have hceil : (N + 1023) / 1024 = N / 1024 := by omega
    have hif : ¬ ((N + 1023) / 1024 ≠ N / 1024) := by omega
    constructor
    · unfold encode_fixed_width
      rw [if_neg hif, encode_full_chunks_length]
      rw [hceil, Nat.mul_assoc, hsz]
    · intro h
      exact absurd hmod h
  · have hceil : (N + 1023) / 1024 = N / 1024 + 1 := by omega
    have hif : (N + 1023) / 1024 ≠ N / 1024 := by omega
    constructor
    · unfold encode_fixed_width
      rw [if_pos hif]
      rw [List.length_append, encode_full_chunks_length, unchecked_pack_length, hceil]
      rw [show N / 1024 * (1024 * b / W) + 1024 * b / W = (N / 1024 + 1) * (1024 * b / W)
        from by ring]
      rw [Nat.mul_assoc, hsz]
    · intro _
      unfold encode_fixed_width
      rw [if_pos hif]
      have hfull : (encode_full_chunks b W input (N / 1024)).length =
          N / 1024 * (1024 * b / W) := encode_full_chunks_length b W input _
      rw [← hfull, List.drop_left]

theorem C2_witness :
    (encode_fixed_width 11 32 (List.range 2048) 2048).length * (32 / 8) = 2816 := by
  have h := (C2_encode_fixed_width_size 11 32 2048 (List.range 2048)
    (Or.inr (Or.inr (Or.inl rfl))) (by norm_num) (by norm_num) (by simp)).1
  simpa using h

/-! ## Binary-search correctness (shared by claims C7 and C10) -/

theorem binary_search_loop_spec (a : List Nat) (t : Nat)
    (hsorted : ∀ i j, i ≤ j → j < a.length → a.getD i 0 ≤ a.getD j 0) :
    ∀ (fuel size base : Nat), 1 ≤ size → size ≤ fuel → base + size ≤ a.length →
    (∀ j, j < base → a.getD j 0 ≤ t) →
    (∀ j, base + size ≤ j → j < a.length → t < a.getD j 0) →
    ((∃ o, binary_search_loop a t base size fuel = .ok o ∧ o < a.length ∧ a.getD o 0 = t ∧
        (∀ j, j < o → a.getD j 0 ≤ t) ∧ (∀ j, o < j → j < a.length → t < a.getD j 0)) ∨
     (∃ o, binary_search_loop a t base size fuel = .error o ∧ o ≤ a.length ∧
        (∀ j, j < o → a.getD j 0 ≤ t) ∧ (∀ j, o ≤ j → j < a.length → t < a.getD j 0))) := by
  intro fuel
  induction fuel with
  | zero =>
    intro size base h1 hf h2 hB hC
    omega
  | succ fuel ih =>
    intro size base h1 hf h2 hB hC
    rw [binary_search_loop]
    by_cases hs : 1 < size
    · rw [if_pos hs]
      have hhalf : 1 ≤ size / 2 := by omega
      have hmidlt : base + size / 2 < a.length := by omega
      by_cases hcmp : t < a.getD (base + size / 2) 0
      · rw [if_pos hcmp]
        apply ih (size - size / 2) base (by omega) (by omega) (by omega) hB
        intro j hj hjlen
        by_cases hj2 : base + size ≤ j
        · exact hC j hj2 hjlen
        · exact lt_of_lt_of_le hcmp (hsorted (base + size / 2) j (by omega) hjlen)
      · rw [if_neg hcmp]
        apply ih (size - size / 2) (base + size / 2) (by omega) (by omega) (by omega)
        · intro j hj
          by_cases hj2 : j < base
          · exact hB j hj2
          · exact le_trans (hsorted j (base + size / 2) (by omega) hmidlt) (not_lt.mp hcmp)
        · intro j hj hjlen
          exact hC j (by omega) hjlen
    · rw [if_neg hs]
      have hbase : base < a.length := by omega
      by_cases heq : a.getD base 0 = t
      · rw [if_pos heq]
        refine Or.inl ⟨base, rfl, hbase, heq, hB, ?_⟩
        intro j hj hjlen
        exact hC j (by omega) hjlen
      · rw [if_neg heq]
        by_cases hlt : a.getD base 0 < t
        · rw [if_pos hlt]
          refine Or.inr ⟨base + 1, rfl, by omega, ?_, ?_⟩
          · intro j hj
            by_cases hj2 : j < base
            · exact hB j hj2
            · have : j = base := by omega
              subst this
              exact le_of_lt hlt
          · intro j hj hjlen
            exact hC j (by omega) hjlen
        · rw [if_neg hlt]
          refine Or.inr ⟨base, rfl, by omega, hB, ?_⟩
          intro j hj hjlen
          by_cases hj2 : j = base
          · subst hj2
            omega
          · exact hC j (by omega) hjlen

theorem cum_offsets_length (acc : Nat) (ns : List Nat) :
    (cum_offsets acc ns).length = ns.length + 1 := by
  induction ns generalizing acc with
  | nil => rfl
  | cons n ns ih => simp [cum_offsets, ih]

theorem cum_offsets_getD (ns : List Nat) :
    ∀ (acc k : Nat), k ≤ ns.length →
      (cum_offsets acc ns).getD k 0 = acc + (ns.take k).sum := by
  induction ns with
  | nil =>
    intro acc k hk
    have : k = 0 := by simpa using hk
    subst this
    simp [cum_offsets]
  | cons n ns ih =>
    intro acc k hk
    cases k with
    | zero => simp [cum_offsets]
    | succ k =>
      simp only [cum_offsets, List.getD_cons_succ, List.take_succ_cons, List.sum_cons]
      rw [ih (acc + n) k (by simpa using hk)]
      omega

theorem cum_offsets_ne_nil (acc : Nat) (ns : List Nat) : cum_offsets acc ns ≠ [] := by
  cases ns <;> simp [cum_offsets]

theorem cum_offsets_getLastD (ns : List Nat) :
    ∀ (acc d : Nat), (cum_offsets acc ns).getLastD d = acc + ns.sum := by
  induction ns with
  | nil => intro acc d; simp [cum_offsets]
  | cons n ns ih =>
    intro acc d
    simp only [cum_offsets, List.getLastD_cons, List.sum_cons]
    rw [ih (acc + n) acc]
    omega

theorem take_sum_le_take_sum (ns : List Nat) {i j : Nat} (hij : i ≤ j) :
    (ns.take i).sum ≤ (ns.take j).sum := by
  rw [show j = i + (j - i) from by omega, List.take_add, List.sum_append]
  exact Nat.le_add_right _ _

theorem take_sum_le_sum (ns : List Nat) (k : Nat) : (ns.take k).sum ≤ ns.sum := by
  conv_rhs => rw [← List.take_append_drop k ns]
  rw [List.sum_append]
  exact Nat.le_add_right _ _

theorem cum_offsets_sorted (acc : Nat) (ns : List Nat) :
    ∀ i j, i ≤ j → j < (cum_offsets acc ns).length →
      (cum_offsets acc ns).getD i 0 ≤ (cum_offsets acc ns).getD j 0 := by
  intro i j hij hj
  rw [cum_offsets_length] at hj
  rw [cum_offsets_getD ns acc i (by omega), cum_offsets_getD ns acc j (by omega)]
  exact Nat.add_le_add_left (take_sum_le_take_sum ns hij) acc

theorem get?_eq_some_getD {α : Type} (l : List α) (n : Nat) (d : α) (h : n < l.length) :
    l.get? n = some (l.getD n d) := by
  induction l generalizing n with
  | nil => simp at h
  | cons x xs ih =>
    cases n with
    | zero => rfl
    | succ n => exact ih n (by simpa using h)

theorem try_new_foldl (remap : Option (SQRecordBatch → SQRecordBatch)) :
    ∀ (batches : List SQRecordBatch) (l : List Nat) (acc : Nat)
      (chks : List SQStorageChunk),
    batches.foldl (try_new_step remap) (l ++ [acc], chks) =
      (l ++ cum_offsets acc (batches.map (fun b =>
          (apply_remap remap b).row_ids.length)),
       chks ++ batches.map (fun b => SQStorageChunk.new (apply_remap remap b))) := by
  intro batches
  induction batches with
  | nil => intro l acc chks; simp [cum_offsets]
  | cons b bs ih =>
    intro l acc chks
    rw [List.foldl_cons]
    rw [show try_new_step remap (l ++ [acc], chks) b =
        ((l ++ [acc]) ++ [acc + (apply_remap remap b).row_ids.length],
         chks ++ [SQStorageChunk.new (apply_remap remap b)]) from by
      simp [try_new_step, List.getLastD_concat]]
    rw [ih]
    simp [cum_offsets, List.append_assoc]

theorem try_new_struct (num_bits : Nat) (batches : List SQRecordBatch)
    (remap : Option (SQRecordBatch → SQRecordBatch)) (st : ScalarQuantizationStorage)
    (h : ScalarQuantizationStorage.try_new num_bits batches remap = some (.ok st)) :
    st.chunks = batches.map (fun b => SQStorageChunk.new (apply_remap remap b)) ∧
    st.offsets = cum_offsets 0 (st.chunks.map SQStorageChunk.len) ∧
    st.chunks ≠ [] := by
  unfold ScalarQuantizationStorage.try_new at h
  rw [show (([0], []) : List Nat × List SQStorageChunk) = (([] : List Nat) ++ [0], [])
    from rfl] at h
  rw [try_new_foldl] at h
  cases batches with
  | nil => simp at h
  | cons b bs =>
    simp only [List.nil_append, List.map_cons, List.nil_append] at h
    rw [show ((SQStorageChunk.new (apply_remap remap b) ::
        bs.map (fun b => SQStorageChunk.new (apply_remap remap b))).get? 0) =
        some (SQStorageChunk.new (apply_remap remap b)) from rfl] at h
    simp only [Option.some.injEq, Except.ok.injEq] at h
    subst h
    refine ⟨rfl, ?_, by simp⟩
    show cum_offsets 0 _ = cum_offsets 0 _
    congr 1
    simp only [List.map_cons, List.map_map]
    rfl

theorem flatten_get? (cs : List (List Nat)) :
    ∀ (k i : Nat) (c : List Nat), cs.get? k = some c →
    ((cs.map List.length).take k).sum ≤ i →
    i < ((cs.map List.length).take (k + 1)).sum →
    cs.flatten.get? i = c.get? (i - ((cs.map List.length).take k).sum) := by
  induction cs with
  | nil => intro k i c hc; simp at hc
  | cons c0 cs ih =>
    intro k i c hc hlo hhi
    cases k with
    | zero =>
      simp only [List.get?] at hc
      cases hc
      simp only [List.map_cons, List.take_succ_cons, List.take_zero, List.sum_cons,
        List.sum_nil, Nat.add_zero] at hhi ⊢
      rw [List.flatten_cons, Nat.sub_zero, List.get?_eq_getElem?, List.get?_eq_getElem?,
        List.getElem?_append_left (by omega)]
    | succ k =>
      simp only [List.get?] at hc
      simp only [List.map_cons, List.take_succ_cons, List.sum_cons] at hlo hhi ⊢
      rw [List.flatten_cons]
      rw [show (c0 ++ cs.flatten).get? i = cs.flatten.get? (i - c0.length) from by
        rw [List.get?_eq_getElem?, List.get?_eq_getElem?,
          List.getElem?_append_right (by omega)]]
      rw [ih k (i - c0.length) c hc (by omega) (by omega)]
      congr 1
      omega

theorem chunk_spec (st : ScalarQuantizationStorage) (ns : List Nat)
    (hoffs : st.offsets = cum_offsets 0 ns)
    (hlenc : st.chunks.length = ns.length)
    (i : Nat) (hi : i < ns.sum) :
    ∃ k c, k < st.chunks.length ∧ st.chunks.get? k = some c ∧
      (ns.take k).sum ≤ i ∧ i < (ns.take (k + 1)).sum ∧
      st.chunk i = some ((ns.take k).sum, c) := by
  have hlen_off : st.offsets.length = ns.length + 1 := by
    rw [hoffs, cum_offsets_length]
  have hlen0 : ¬ (st.offsets.length = 0) := by omega
  have hsorted : ∀ a b, a ≤ b → b < st.offsets.length →
      st.offsets.getD a 0 ≤ st.offsets.getD b 0 := by
    intro a b hab hb
    rw [hoffs] at hb ⊢
    exact cum_offsets_sorted 0 ns a b hab hb
  have hgetD : ∀ k, k ≤ ns.length → st.offsets.getD k 0 = (ns.take k).sum := by
    intro k hk
    rw [hoffs, cum_offsets_getD ns 0 k hk, Nat.zero_add]
  have hspec := binary_search_loop_spec st.offsets i hsorted st.offsets.length
    st.offsets.length 0 (by omega) le_rfl (by omega) (by omega) (by omega)
  rcases hspec with ⟨o, hok, holt, hoeq, _hble, hgt⟩ | ⟨o, herr, hole, hble, hgt⟩
  · have hbs : binary_search st.offsets i = .ok o := by
      rw [binary_search, if_neg hlen0]
      exact hok
    have hochunks : o < st.chunks.length := by
      by_contra hc
      have ho : o = ns.length := by omega
      rw [ho, hgetD ns.length le_rfl, List.take_length] at hoeq
      omega
    have hoi : st.offsets.getD o 0 = (ns.take o).sum := hgetD o (by omega)
    refine ⟨o, st.chunks.getD o ⟨[], [], 0⟩, hochunks,
      get?_eq_some_getD st.chunks o ⟨[], [], 0⟩ hochunks, ?_, ?_, ?_⟩
    · rw [← hoi, hoeq]
    · have := hgt (o + 1) (by omega) (by omega)
      rw [hgetD (o + 1) (by omega)] at this
      omega
    · have hch : st.chunk i =
          (match st.offsets.get? o, st.chunks.get? o with
           | some off, some c => some (off, c)
           | _, _ => none) := by
        rw [ScalarQuantizationStorage.chunk, hbs]
      rw [hch, get?_eq_some_getD st.offsets o 0 (by omega),
        get?_eq_some_getD st.chunks o ⟨[], [], 0⟩ hochunks, hoi]
  · have ho1 : 1 ≤ o := by
      by_contra hc
      have h0 : o = 0 := by omega
      have := hgt 0 (by omega) (by omega)
      rw [hgetD 0 (by omega)] at this
      simp at this
    have holt2 : o < st.offsets.length := by
      by_contra hc
      have ho : o = ns.length + 1 := by omega
      have := hble ns.length (by omega)
      rw [hgetD ns.length le_rfl, List.take_length] at this
      omega
    have hbs : binary_search st.offsets i = .error o := by
      rw [binary_search, if_neg hlen0]
      exact herr
    have hkc : o - 1 < st.chunks.length := by omega
    have hlo2 : (ns.take (o - 1)).sum ≤ i := by
      have := hble (o - 1) (by omega)
      rwa [hgetD (o - 1) (by omega)] at this
    have hhi2 : i < (ns.take o).sum := by
      have := hgt o le_rfl (by omega)
      rwa [hgetD o (by omega)] at this
    refine ⟨o - 1, st.chunks.getD (o - 1) ⟨[], [], 0⟩, hkc,
      get?_eq_some_getD st.chunks (o - 1) ⟨[], [], 0⟩ hkc, hlo2, ?_, ?_⟩
    · rw [show o - 1 + 1 = o from by omega]
      exact hhi2
    · have hch : st.chunk i =
          (if o = 0 then none
           else match st.offsets.get? (o - 1), st.chunks.get? (o - 1) with
           | some off, some c => some (off, c)
           | _, _ => none) := by
        rw [ScalarQuantizationStorage.chunk, hbs]
      rw [hch, if_neg (by omega : ¬ (o = 0)),
        get?_eq_some_getD st.offsets (o - 1) 0 (by omega),
        get?_eq_some_getD st.chunks (o - 1) ⟨[], [], 0⟩ hkc,
        hgetD (o - 1) (by omega)]

/-- Claim C7: for every `ScalarQuantizationStorage` built by `try_new` from
a list of record batches and every `i` in `[0, len)`, `row_id(i)` returns
the same row ID as position `i` of the concatenation of all chunks'
`row_id` columns (the binary search over `offsets` selects chunk `o` on an
exact match at `offsets[o]` and chunk `o - 1` otherwise, and
`chunk.row_ids[i - offset]` is read there). -/
theorem C7_row_id_concat (num_bits : Nat) (batches : List SQRecordBatch)
    (remap : Option (SQRecordBatch → SQRecordBatch)) (st : ScalarQuantizationStorage)
    (hst : ScalarQuantizationStorage.try_new num_bits batches remap = some (.ok st))
    (i : Nat) (hi : i < st.len) :
    st.row_id i = ((st.chunks.map SQStorageChunk.row_ids).flatten).get? i := by
  obtain ⟨_hchunks, hoffs, _hne⟩ := try_new_struct num_bits batches remap st hst
  have htotal : st.len = (st.chunks.map SQStorageChunk.len).sum := by
    rw [ScalarQuantizationStorage.len, hoffs, cum_offsets_getLastD]
    exact Nat.zero_add _
  have hmaps : (st.chunks.map SQStorageChunk.row_ids).map List.length =
      st.chunks.map SQStorageChunk.len := by
    rw [List.map_map]
    rfl
  obtain ⟨k, c, hk, hck, hlo, hhi, hchunk⟩ := chunk_spec st
    (st.chunks.map SQStorageChunk.len) hoffs (by simp) i (by omega)
  rw [ScalarQuantizationStorage.row_id, hchunk]
  simp only [SQStorageChunk.row_id]
  rw [flatten_get? (st.chunks.map SQStorageChunk.row_ids) k i c.row_ids
    (by rw [List.get?_map, hck]; rfl)
    (by rw [hmaps]; exact hlo)
    (by rw [hmaps]; exact hhi)]
  rw [hmaps]

theorem C7_witness :
    (ScalarQuantizationStorage.row_id
      { quantizer := { num_bits := 8, dim := 1 },
        offsets := [0, 2, 5],
        chunks := [{ row_ids := [10, 11], sq_codes := [7, 7], dim := 1 },
                   { row_ids := [20, 21, 22], sq_codes := [7, 7, 7], dim := 1 }] } 3) =
    (([{ row_ids := [10, 11], sq_codes := [7, 7], dim := 1 },
       { row_ids := [20, 21, 22], sq_codes := [7, 7, 7], dim := 1 }]
        : List SQStorageChunk).map SQStorageChunk.row_ids).flatten.get? 3 := by
  exact C7_row_id_concat 8
    [⟨[10, 11], [7, 7], 1⟩, ⟨[20, 21, 22], [7, 7, 7], 1⟩] none
    { quantizer := { num_bits := 8, dim := 1 },
      offsets := [0, 2, 5],
      chunks := [⟨[10, 11], [7, 7], 1⟩, ⟨[20, 21, 22], [7, 7, 7], 1⟩] }
    rfl 3 (by decide)

/-- Counterexample to claim C10 as stated: in the storage with two chunks of
2 and 3 rows (`offsets = [0, 2, 5]`, `len = 5`), the call with `id = 7`
(`id > len`, not at a chunk boundary) panics inside `chunk` at the
`chunks[o - 1]` index with `o - 1 = chunks.len() = 2` (modelled `none`), so
the claimed out-of-bounds access into the last chunk's `row_ids` is never
reached — the row-id read would require `chunk` to return the last chunk,
but `chunk` itself aborts. -/
theorem C10_counterexample :
    ScalarQuantizationStorage.chunk
      { quantizer := { num_bits := 8, dim := 1 },
        offsets := [0, 2, 5],
        chunks := [{ row_ids := [10, 11], sq_codes := [7, 7], dim := 1 },
                   { row_ids := [20, 21, 22], sq_codes := [7, 7, 7], dim := 1 }] } 7
      = none := by
  decide

/-- Claim C10 (amended): `row_id` (and `chunk`) performs no bounds check on
`id` — for every `id ≥ len()` the call panics rather than returning an
error, and the panic is the out-of-bounds index into `chunks` inside
`chunk` itself (at index `chunks.len()`: via the exact match `Ok(o)` when
`id = len`, via `Err(o)` with `o = offsets.len()` when `id > len`); the
last chunk's `row_ids` is never accessed. -/
theorem C10_row_id_out_of_range (num_bits : Nat) (batches : List SQRecordBatch)
    (remap : Option (SQRecordBatch → SQRecordBatch)) (st : ScalarQuantizationStorage)
    (hst : ScalarQuantizationStorage.try_new num_bits batches remap = some (.ok st))
    (id : Nat) (hid : st.len ≤ id) :
    st.chunk id = none ∧ st.row_id id = none := by
  obtain ⟨_hchunks, hoffs, _hne⟩ := try_new_struct num_bits batches remap st hst
  have htotal : st.len = (st.chunks.map SQStorageChunk.len).sum := by
    rw [ScalarQuantizationStorage.len, hoffs, cum_offsets_getLastD]
    exact Nat.zero_add _
  set ns := st.chunks.map SQStorageChunk.len with hns
  have hlen_off : st.offsets.length = ns.length + 1 := by
    rw [hoffs, cum_offsets_length]
  have hlen0 : ¬ (st.offsets.length = 0) := by omega
  have hlenc : st.chunks.length = ns.length := by simp [hns]
  have hsorted : ∀ a b, a ≤ b → b < st.offsets.length →
      st.offsets.getD a 0 ≤ st.offsets.getD b 0 := by
    intro a b hab hb
    rw [hoffs] at hb ⊢
    exact cum_offsets_sorted 0 ns a b hab hb
  have hgetD : ∀ k, k ≤ ns.length → st.offsets.getD k 0 = (ns.take k).sum := by
    intro k hk
    rw [hoffs, cum_offsets_getD ns 0 k hk, Nat.zero_add]
  have hbound : ∀ j, j < st.offsets.length → st.offsets.getD j 0 ≤ id := by
    intro j hj
    rw [hgetD j (by omega)]
    exact le_trans (take_sum_le_sum ns j) (by omega)
  have hchunknone : st.chunk id = none := by
    have hspec := binary_search_loop_spec st.offsets id hsorted st.offsets.length
      st.offsets.length 0 (by omega) le_rfl (by omega) (by omega) (by omega)
    rcases hspec with ⟨o, hok, holt, _hoeq, _hble, hgt⟩ | ⟨o, herr, hole, _hble, hgt⟩
    · have hbs : binary_search st.offsets id = .ok o := by
        rw [binary_search, if_neg hlen0]
        exact hok
      have ho : o = ns.length := by
        by_contra hc
        have := hgt (o + 1) (by omega) (by omega)
        have := hbound (o + 1) (by omega)
        omega
      have hch : st.chunk id =
          (match st.offsets.get? o, st.chunks.get? o with
           | some off, some c => some (off, c)
           | _, _ => none) := by
        rw [ScalarQuantizationStorage.chunk, hbs]
      rw [hch, get?_eq_some_getD st.offsets o 0 (by omega),
        List.get?_eq_none.mpr (by omega : st.chunks.length ≤ o)]
    · have hbs : binary_search st.offsets id = .error o := by
        rw [binary_search, if_neg hlen0]
        exact herr
      have ho : o = ns.length + 1 := by
        by_contra hc
        have := hgt o le_rfl (by omega)
        have := hbound o (by omega)
        omega
      have hch : st.chunk id =
          (if o = 0 then none
           else match st.offsets.get? (o - 1), st.chunks.get? (o - 1) with
           | some off, some c => some (off, c)
           | _, _ => none) := by
        rw [ScalarQuantizationStorage.chunk, hbs]
      rw [hch, if_neg (by omega : ¬ (o = 0)),
        get?_eq_some_getD st.offsets (o - 1) 0 (by omega),
        List.get?_eq_none.mpr (by omega : st.chunks.length ≤ o - 1)]
  refine ⟨hchunknone, ?_⟩
  rw [ScalarQuantizationStorage.row_id, hchunknone]

theorem C10_witness :
    ScalarQuantizationStorage.chunk
      { quantizer := { num_bits := 8, dim := 1 },
        offsets := [0, 2, 5],
        chunks := [{ row_ids := [10, 11], sq_codes := [7, 7], dim := 1 },
                   { row_ids := [20, 21, 22], sq_codes := [7, 7, 7], dim := 1 }] } 6
      = none ∧
    ScalarQuantizationStorage.row_id
      { quantizer := { num_bits := 8, dim := 1 },
        offsets := [0, 2, 5],
        chunks := [{ row_ids := [10, 11], sq_codes := [7, 7], dim := 1 },
                   { row_ids := [20, 21, 22], sq_codes := [7, 7, 7], dim := 1 }] } 6
      = none :=
  C10_row_id_out_of_range 8
    [⟨[10, 11], [7, 7], 1⟩, ⟨[20, 21, 22], [7, 7, 7], 1⟩] none
    { quantizer := { num_bits := 8, dim := 1 },
      offsets := [0, 2, 5],
      chunks := [⟨[10, 11], [7, 7], 1⟩, ⟨[20, 21, 22], [7, 7, 7], 1⟩] }
    rfl 6 (by decide)

/-! ## Claim C1: the bit-granular codec roundtrip -/

/-- Claim C1 (code bug): the bit-granular roundtrip fails.  For the `u8`
array `[1, 1]` with every value fitting in `b = 1` bit,
`BitpackedArrayEncoder::encode` packs only the first value: after emitting
the bits of a value, `pack_bits` advances `src_idx` by
`src.len() - partial_bytes_written + to_next_byte`, using the whole
buffer's length where the value's byte width is required, so `src_idx`
jumps past the second value.  Decoding the packed buffer then returns
`[1, 0]`, not the original array. -/
theorem C1_roundtrip_fails :
    BitpackedArrayEncoder.encode 1 2 [1, 1] = [1] ∧
    BitpackedPageDecoder.decode false 1 8 [([1], 0, some 2)] 0 2 = [1, 0] ∧
    ([1, 0] : List Nat) ≠ [1, 1] :=
  ⟨by decide, by decide, by decide⟩

/-! ## Claim C4: sign extension in the bit-granular unpacker -/

theorem getD_set_self (l : List Nat) (i a d : Nat) (h : i < l.length) :
    (l.set i a).getD i d = a := by
  rw [List.getD_eq_getElem?_getD, List.getElem?_set, if_pos rfl, if_pos h]
  rfl

theorem getD_set_ne (l : List Nat) (i j a d : Nat) (h : i ≠ j) :
    (l.set i a).getD j d = l.getD j d := by
  rw [List.getD_eq_getElem?_getD, List.getElem?_set, if_neg h,
    ← List.getD_eq_getElem?_getD]

theorem getD_replicate_zero (n i : Nat) : (List.replicate n (0 : Nat)).getD i 0 = 0 := by
  rw [List.getD_eq_getElem?_getD, List.getElem?_replicate]
  split <;> rfl

theorem list_eq_of_getD (l1 l2 : List Nat) (hlen : l1.length = l2.length)
    (h : ∀ m, m < l1.length → l1.getD m 0 = l2.getD m 0) : l1 = l2 := by
  refine List.ext_get hlen (fun n h1 h2 => ?_)
  have hn := h n h1
  rwa [List.getD_eq_get l1 0 h1, List.getD_eq_get l2 0 h2] at hn

theorem pow_split_two (a k : Nat) (h : k ≤ a) : (2 : Nat) ^ a = 2 ^ k * 2 ^ (a - k) := by
  rw [← pow_add]
  congr 1
  omega

theorem two_pow_sub_one_mod_256 (n : Nat) (h : 8 ≤ n) : ((2 : Nat) ^ n - 1) % 256 = 255 := by
  have h2 : (2 : Nat) ^ n = 256 * 2 ^ (n - 8) := by
    rw [pow_split_two n 8 h]
    norm_num
  have ht : 1 ≤ (2 : Nat) ^ (n - 8) := Nat.one_le_two_pow
  omega

theorem two_pow_sub_one_div_256 (n : Nat) (h : 8 ≤ n) :
    ((2 : Nat) ^ n - 1) / 2 ^ 8 = 2 ^ (n - 8) - 1 := by
  have h2 : (2 : Nat) ^ n = 256 * 2 ^ (n - 8) := by
    rw [pow_split_two n 8 h]
    norm_num
  have ht : 1 ≤ (2 : Nat) ^ (n - 8) := Nat.one_le_two_pow
  have h8 : (2 : Nat) ^ 8 = 256 := by norm_num
  rw [h8]
  omega

theorem decode_inner_done (src : List Nat) (b fuel : Nat) (s : DecodeState)
    (h : b ≤ s.src_bits_written) : decode_inner src b fuel s = s := by
  cases fuel with
  | zero => rfl
  | succ f =>
    rw [decode_inner, if_neg (by omega)]

theorem pad_sign_bits_done (fuel : Nat) (dest : List Nat) (idx off : Nat) (h : 8 ≤ off) :
    pad_sign_bits fuel dest idx off = dest := by
  cases fuel with
  | zero => rfl
  | succ f =>
    rw [pad_sign_bits, if_neg (by omega)]

theorem pad_sign_bits_spec : ∀ fuel off (dest : List Nat) idx, off < 8 → 8 - off ≤ fuel →
    idx < dest.length →
    pad_sign_bits fuel dest idx off =
      dest.set idx ((dest.getD idx 0) ||| (2 ^ 8 - 2 ^ off)) := by
  intro fuel
  induction fuel with
  | zero =>
    intro off dest idx h1 h2 _
    omega
  | succ f ih =>
    intro off dest idx h1 h2 hidx
    rw [pad_sign_bits, if_pos h1]
    by_cases h8 : off + 1 < 8
    · rw [ih (off + 1) _ idx h8 (by omega) (by rwa [List.length_set]),
        getD_set_self dest idx _ 0 hidx, List.set_set, Nat.lor_assoc]
      have hsplit : (2 : Nat) ^ (off + 1) * 2 ^ (7 - off) = 2 ^ 8 := by
        rw [← pow_add]
        congr 1
        omega
      have hd : (2 : Nat) ^ 8 - 2 ^ (off + 1) = 2 ^ (off + 1) * (2 ^ (7 - off) - 1) := by
        have h1p : 1 ≤ (2 : Nat) ^ (7 - off) := Nat.one_le_two_pow
        have hmul : (2 : Nat) ^ (off + 1) * 2 ^ (7 - off) =
            2 ^ (off + 1) * (2 ^ (7 - off) - 1) + 2 ^ (off + 1) := by
          have he : (2 : Nat) ^ (7 - off) = (2 ^ (7 - off) - 1) + 1 := by omega
          conv_lhs => rw [he]
          ring
        omega
      have hor : (2 : Nat) ^ off ||| (2 ^ 8 - 2 ^ (off + 1)) = 2 ^ 8 - 2 ^ off := by
        rw [hd, Nat.lor_comm, ← Nat.mul_add_lt_is_or (by
          have h2s : (2 : Nat) ^ (off + 1) = 2 * 2 ^ off := by
            rw [pow_succ]
            ring
          have h1o : 1 ≤ (2 : Nat) ^ off := Nat.one_le_two_pow
          omega) (2 ^ (7 - off) - 1)]
        have hA : (2 : Nat) ^ (off + 1) = 2 * 2 ^ off := by
          rw [pow_succ]
          ring
        have hB : (2 : Nat) ^ off ≤ 2 ^ 7 := Nat.pow_le_pow_right (by norm_num) (by omega)
        have h256 : (2 : Nat) ^ 8 = 256 := by norm_num
        have h128 : (2 : Nat) ^ 7 = 128 := by norm_num
        omega
      rw [hor]
    · have hoff : off = 7 := by omega
      subst hoff
      rw [pad_sign_bits_done f _ idx 8 (le_refl 8)]
      norm_num

theorem fill_ff_foldl_length : ∀ n lo (dest : List Nat),
    ((List.range' lo n).foldl (fun d j => d.set j 255) dest).length = dest.length := by
  intro n
  induction n with
  | zero =>
    intro lo dest
    rfl
  | succ k ih =>
    intro lo dest
    rw [List.range'_succ, List.foldl_cons, ih (lo + 1) (dest.set lo 255), List.length_set]

theorem fill_ff_foldl_getD : ∀ n lo (dest : List Nat) m, lo + n ≤ dest.length →
    ((List.range' lo n).foldl (fun d j => d.set j 255) dest).getD m 0 =
      if lo ≤ m ∧ m < lo + n then 255 else dest.getD m 0 := by
  intro n
  induction n with
  | zero =>
    intro lo dest m _
    rw [if_neg (by omega)]
    rfl
  | succ k ih =>
    intro lo dest m hlen
    rw [List.range'_succ, List.foldl_cons,
      ih (lo + 1) (dest.set lo 255) m (by rw [List.length_set]; omega)]
    by_cases hm : lo = m
    · subst hm
      rw [if_neg (by omega), if_pos (by omega), getD_set_self _ _ _ _ (by omega)]
    · rw [getD_set_ne _ _ _ _ _ hm]
      by_cases hin : lo + 1 ≤ m ∧ m < lo + 1 + k
      · rw [if_pos hin, if_pos (by omega)]
      · rw [if_neg hin, if_neg (by omega)]

theorem nat_to_le_bytes_length (n v : Nat) : (nat_to_le_bytes n v).length = n := by
  simp [nat_to_le_bytes]

theorem nat_to_le_bytes_getD (n v j : Nat) (h : j < n) :
    (nat_to_le_bytes n v).getD j 0 = v / 2 ^ (8 * j) % 256 := by
  rw [nat_to_le_bytes, List.getD_eq_getElem?_getD, List.getElem?_map,
    List.getElem?_range h]
  rfl

theorem is_encoded_item_negative_spec (src : List Nat) (b v : Nat) (h1 : 1 ≤ b)
    (hsrc : ∀ j, j < (b + 7) / 8 → src.getD j 0 = v / 2 ^ (8 * j) % 256)
    (hneg : v.testBit (b - 1) = true) :
    is_encoded_item_negative src 0 0 b = true := by
  have hbit : ∀ k j, j < 8 → 8 * k + j = b - 1 → k < (b + 7) / 8 →
      (src.getD k 0).testBit j = true := by
    intro k j hj hkj hk
    rw [hsrc k hk]
    have h256 : (256 : Nat) = 2 ^ 8 := by norm_num
    rw [h256, Nat.testBit_mod_two_pow, ← Nat.shiftRight_eq_div_pow,
      Nat.testBit_shiftRight, decide_eq_true hj, Bool.true_and, hkj]
    exact hneg
  rw [is_encoded_item_negative]
  simp only [Nat.zero_add]
  by_cases hr : b % 8 = 0
  · rw [if_pos hr, decide_eq_true_eq, Nat.and_two_pow,
      hbit (b / 8 - 1) 7 (by norm_num) (by omega) (by omega)]
    decide
  · rw [if_neg hr, decide_eq_true_eq, Nat.and_two_pow,
      hbit (b / 8) (b % 8 - 1) (by omega) (by omega) (by omega)]
    have h1p : 1 ≤ (2 : Nat) ^ (b % 8 - 1) := Nat.one_le_two_pow
    simp only [Bool.toNat_true, one_mul]
    omega

/-- Correctness of one packed value's copy through `decode_inner`: from a
byte-aligned start (`dst_offset = src_offset = 0`, `src_bits_written = c`,
mask `2 ^ n - 1` with `n = b - c` bits still to write), with the source
bytes holding the little-endian bytes of a value `v < 2 ^ n` and the
destination window zeroed, the loop writes the `(n + 7) / 8` little-endian
bytes of `v` into the window and ends with all four cursors advanced by `n`
bits. -/
theorem decode_inner_spec : ∀ fuel v n, 1 ≤ n → (n + 7) / 8 ≤ fuel →
    ∀ b c src i d dest, b = c + n →
    src.length = i + (n + 7) / 8 →
    (∀ j, j < (n + 7) / 8 → src.getD (i + j) 0 = v / 2 ^ (8 * j) % 256) →
    v < 2 ^ n →
    (∀ j, j < (n + 7) / 8 → dest.getD (d + j) 0 = 0) →
    d + (n + 7) / 8 ≤ dest.length →
    ∃ dest2 cs2 cm2,
      decode_inner src b fuel
        { dest := dest, dst_idx := d, dst_offset := 0, src_idx := i, src_offset := 0,
          curr_src := (src.getD i 0) &&& ((2 ^ n - 1) % 256),
          curr_mask := 2 ^ n - 1, src_bits_written := c } =
        { dest := dest2, dst_idx := d + n / 8, dst_offset := n % 8,
          src_idx := i + n / 8, src_offset := n % 8,
          curr_src := cs2, curr_mask := cm2, src_bits_written := b } ∧
      dest2.length = dest.length ∧
      ∀ m, dest2.getD m 0 =
        if d ≤ m ∧ m < d + (n + 7) / 8 then v / 2 ^ (8 * (m - d)) % 256
        else dest.getD m 0 := by
  intro fuel
  induction fuel with
  | zero =>
    intro v n h1 hf
    omega
  | succ f ih =>
    intro v n h1 hf b c src i d dest hb hlen hsrc hv hdest hdlen
    subst hb
    have hceil1 : 1 ≤ (n + 7) / 8 := by omega
    have hi0 : src.getD i 0 = v % 256 := by
      have h0 := hsrc 0 hceil1
      simpa using h0
    have hd0 : dest.getD d 0 = 0 := by
      have h0 := hdest 0 hceil1
      simpa using h0
    rw [decode_inner, if_pos (show c < c + n by omega)]
    dsimp only
    by_cases hn8 : n ≤ 8
    · -- final iteration: the remaining n ≤ 8 bits are copied in one step
      have hbw : min (c + n - c) (min (8 - 0) (8 - 0)) = n := by omega
      rw [hbw, Nat.zero_add]
      have hv256 : v < 256 := by
        have h2 : (2 : Nat) ^ n ≤ 2 ^ 8 := Nat.pow_le_pow_right (by norm_num) hn8
        have h8 : (2 : Nat) ^ 8 = 256 := by norm_num
        omega
      have hmask : ((2 : Nat) ^ n - 1) % 256 = 2 ^ n - 1 := by
        have h2 : (2 : Nat) ^ n ≤ 2 ^ 8 := Nat.pow_le_pow_right (by norm_num) hn8
        have h8 : (2 : Nat) ^ 8 = 256 := by norm_num
        omega
      have hval : (dest.getD d 0 + (src.getD i 0 &&& (2 ^ n - 1) % 256) / 2 ^ 0 * 2 ^ 0 % 256) % 256
          = v := by
        rw [hd0, hi0, hmask, Nat.mod_eq_of_lt hv256, Nat.and_pow_two_sub_one_eq_mod,
          Nat.mod_eq_of_lt hv, pow_zero, Nat.div_one, mul_one]
        omega
      rw [hval]
      by_cases hn8eq : n = 8
      · subst hn8eq
        simp only [if_pos (Eq.refl (8 : Nat))]
        rw [if_pos (show i + 1 = src.length by omega)]
        refine ⟨dest.set d v, src.getD i 0 &&& (2 ^ 8 - 1) % 256, (2 ^ 8 - 1) / 2 ^ 8, rfl,
          List.length_set dest d v, fun m => ?_⟩
        by_cases hm : m = d
        · subst hm
          rw [getD_set_self _ _ _ _ (by omega), if_pos (by omega), Nat.sub_self]
          simp [Nat.mod_eq_of_lt hv256]
        · rw [getD_set_ne _ _ _ _ _ (by omega), if_neg (by omega)]
      · simp only [if_neg (show ¬(n = 8) from hn8eq)]
        refine ⟨dest.set d v, src.getD i 0 &&& (2 ^ n - 1) % 256, (2 ^ n - 1) / 2 ^ n,
          (decode_inner_done src (c + n) f _ (Nat.le_refl _)).trans ?_,
          List.length_set dest d v, fun m => ?_⟩
        · congr 1 <;> omega
        · by_cases hm : m = d
          · subst hm
            rw [getD_set_self _ _ _ _ (by omega), if_pos (by omega), Nat.sub_self]
            simp [Nat.mod_eq_of_lt hv256]
          · rw [getD_set_ne _ _ _ _ _ (by omega), if_neg (by omega)]
    · -- copy one full byte, then recurse on the remaining n - 8 bits
      have hbw : min (c + n - c) (min (8 - 0) (8 - 0)) = 8 := by omega
      rw [hbw, Nat.zero_add]
      simp only [if_pos (Eq.refl (8 : Nat))]
      rw [if_neg (show ¬(i + 1 = src.length) by omega)]
      rw [two_pow_sub_one_div_256 n (by omega)]
      have hval : (dest.getD d 0 + (src.getD i 0 &&& (2 ^ n - 1) % 256) / 2 ^ 0 * 2 ^ 0 % 256) % 256
          = v % 256 := by
        rw [hd0, hi0, two_pow_sub_one_mod_256 n (by omega),
          show (255 : Nat) = 2 ^ 8 - 1 from by norm_num, Nat.and_pow_two_sub_one_eq_mod,
          show (2 : Nat) ^ 8 = 256 from by norm_num, pow_zero, Nat.div_one, mul_one]
        omega
      rw [hval]
      obtain ⟨dest2, cs2, cm2, heq, hlen2, hget2⟩ :=
        ih (v / 2 ^ 8) (n - 8) (by omega) (by omega) (c + n) (c + 8) src (i + 1) (d + 1)
          (dest.set d (v % 256)) (by omega) (by omega)
          (fun j hj => by
            have hs := hsrc (j + 1) (by omega)
            rw [show i + (j + 1) = i + 1 + j from by omega] at hs
            rw [hs, show 8 * (j + 1) = 8 + 8 * j from by ring, pow_add,
              ← Nat.div_div_eq_div_mul])
          (by
            have hv8 : v < 2 ^ 8 * 2 ^ (n - 8) := by
              rw [← pow_split_two n 8 (by omega)]
              exact hv
            exact Nat.div_lt_of_lt_mul hv8)
          (fun j hj => by
            rw [show d + 1 + j = d + (j + 1) from by omega,
              getD_set_ne _ _ _ _ _ (by omega)]
            exact hdest (j + 1) (by omega))
          (by rw [List.length_set]; omega)
      refine ⟨dest2, cs2, cm2, heq.trans ?_, ?_, fun m => ?_⟩
      · congr 1 <;> omega
      · rw [hlen2, List.length_set]
      · rw [hget2 m]
        by_cases hm : m = d
        · subst hm
          rw [if_neg (by omega), getD_set_self _ _ _ _ (by omega), if_pos (by omega),
            Nat.sub_self]
          simp
        · by_cases hin : d + 1 ≤ m ∧ m < d + 1 + (n - 8 + 7) / 8
          · rw [if_pos hin, if_pos (by omega), Nat.div_div_eq_div_mul, ← pow_add,
              show 8 + 8 * (m - (d + 1)) = 8 * (m - d) from by omega]
          · rw [if_neg hin, getD_set_ne _ _ _ _ _ (by omega), if_neg (by omega)]

theorem sign_extend_byte_low (W b v m : Nat) (hm : 8 * m + 8 ≤ b) (hbW : b ≤ W) :
    (v + (2 ^ W - 2 ^ b)) / 2 ^ (8 * m) % 256 = v / 2 ^ (8 * m) % 256 := by
  have hA : 0 < (2 : Nat) ^ (8 * m) := pow_pos (by norm_num) _
  have hk12 : (2 : Nat) ^ (b - 8 * m - 8) ≤ 2 ^ (W - 8 * m - 8) :=
    Nat.pow_le_pow_right (by norm_num) (by omega)
  obtain ⟨S, hS⟩ := Nat.le.dest hk12
  have e2 : (2 : Nat) ^ b = 2 ^ (8 * m) * (256 * 2 ^ (b - 8 * m - 8)) := by
    have hsub : b - 8 * m - 8 = b - 8 * m - 8 := rfl
    rw [pow_split_two b (8 * m) (by omega), pow_split_two (b - 8 * m) 8 (by omega)]
    norm_num
  have e1 : (2 : Nat) ^ W = 2 ^ (8 * m) * (256 * (2 ^ (b - 8 * m - 8) + S)) := by
    rw [pow_split_two W (8 * m) (by omega), pow_split_two (W - 8 * m) 8 (by omega), ← hS]
    norm_num
  have edist : (2 : Nat) ^ (8 * m) * (256 * (2 ^ (b - 8 * m - 8) + S)) =
      2 ^ (8 * m) * (256 * 2 ^ (b - 8 * m - 8)) + 2 ^ (8 * m) * (256 * S) := by ring
  have hx : v + (2 ^ W - 2 ^ b) = v + 2 ^ (8 * m) * (256 * S) := by omega
  rw [hx, Nat.add_mul_div_left v (256 * S) hA]
  omega

theorem sign_extend_byte_high (W b v m : Nat) (hm : b ≤ 8 * m) (hmW : 8 * m + 8 ≤ W)
    (hv : v < 2 ^ b) :
    (v + (2 ^ W - 2 ^ b)) / 2 ^ (8 * m) % 256 = 255 := by
  have hA : 0 < (2 : Nat) ^ (8 * m) := pow_pos (by norm_num) _
  have hbA : (2 : Nat) ^ b ≤ 2 ^ (8 * m) := Nat.pow_le_pow_right (by norm_num) hm
  have e1 : (2 : Nat) ^ W = 2 ^ (8 * m) * (256 * 2 ^ (W - 8 * m - 8)) := by
    rw [pow_split_two W (8 * m) (by omega), pow_split_two (W - 8 * m) 8 (by omega)]
    norm_num
  have h1p : 1 ≤ (2 : Nat) ^ (W - 8 * m - 8) := Nat.one_le_two_pow
  obtain ⟨K, hK1⟩ : ∃ K, 256 * 2 ^ (W - 8 * m - 8) = K + 1 :=
    ⟨256 * 2 ^ (W - 8 * m - 8) - 1, by omega⟩
  rw [hK1] at e1
  have edist : (2 : Nat) ^ (8 * m) * (K + 1) = 2 ^ (8 * m) * K + 2 ^ (8 * m) := by ring
  have hx : v + (2 ^ W - 2 ^ b) = 2 ^ (8 * m) * K + (2 ^ (8 * m) - 2 ^ b + v) := by omega
  rw [hx, Nat.mul_add_div hA, Nat.div_eq_of_lt (by omega)]
  omega

theorem sign_extend_byte_mid (W b v : Nat) (hr : b % 8 ≠ 0) (hbW : b ≤ W) (hW8 : W % 8 = 0)
    (hv : v < 2 ^ b) :
    (v + (2 ^ W - 2 ^ b)) / 2 ^ (8 * (b / 8)) % 256 =
      v / 2 ^ (8 * (b / 8)) + (2 ^ 8 - 2 ^ (b % 8)) := by
  have hA : 0 < (2 : Nat) ^ (8 * (b / 8)) := pow_pos (by norm_num) _
  have hmW : 8 * (b / 8) + 8 ≤ W := by omega
  have e2 : (2 : Nat) ^ b = 2 ^ (8 * (b / 8)) * 2 ^ (b % 8) := by
    have hsub : b - 8 * (b / 8) = b % 8 := by omega
    rw [pow_split_two b (8 * (b / 8)) (by omega), hsub]
  have e1 : (2 : Nat) ^ W = 2 ^ (8 * (b / 8)) * (256 * 2 ^ (W - 8 * (b / 8) - 8)) := by
    rw [pow_split_two W (8 * (b / 8)) (by omega),
      pow_split_two (W - 8 * (b / 8)) 8 (by omega)]
    norm_num
  have h2r : (2 : Nat) ^ (b % 8) ≤ 2 ^ 7 := Nat.pow_le_pow_right (by norm_num) (by omega)
  have h128 : (2 : Nat) ^ 7 = 128 := by norm_num
  have hKpos : 1 ≤ (2 : Nat) ^ (W - 8 * (b / 8) - 8) := Nat.one_le_two_pow
  obtain ⟨T, hT⟩ : ∃ T, 256 * 2 ^ (W - 8 * (b / 8) - 8) = 2 ^ (b % 8) + T :=
    ⟨256 * 2 ^ (W - 8 * (b / 8) - 8) - 2 ^ (b % 8), by omega⟩
  rw [hT] at e1
  have edist : (2 : Nat) ^ (8 * (b / 8)) * (2 ^ (b % 8) + T) =
      2 ^ (8 * (b / 8)) * 2 ^ (b % 8) + 2 ^ (8 * (b / 8)) * T := by ring
  have hx : v + (2 ^ W - 2 ^ b) = v + 2 ^ (8 * (b / 8)) * T := by omega
  rw [hx, Nat.add_mul_div_left v T hA]
  have hu : v / 2 ^ (8 * (b / 8)) < 2 ^ (b % 8) := Nat.div_lt_of_lt_mul (by rw [← e2]; exact hv)
  have h2rb : (2 : Nat) ^ (b % 8) ≤ 128 :=
    le_trans (Nat.pow_le_pow_right (by norm_num) (by omega : b % 8 ≤ 7)) (by norm_num)
  have h2r1 : 2 ≤ (2 : Nat) ^ (b % 8) := by
    have h21 : (2 : Nat) ^ 1 ≤ 2 ^ (b % 8) := Nat.pow_le_pow_right (by norm_num) (by omega)
    simpa using h21
  have h28 : (2 : Nat) ^ 8 = 256 := by norm_num
  rw [h28]
  generalize hgu : v / 2 ^ (8 * (b / 8)) = u at hu ⊢
  generalize hgt : (2 : Nat) ^ (b % 8) = t at hu hT h2rb h2r1 ⊢
  generalize hgK : (2 : Nat) ^ (W - 8 * (b / 8) - 8) = K at hT hKpos
  omega

theorem lor_pad_byte (u r : Nat) (hr1 : 1 ≤ r) (hr7 : r ≤ 7) (hu : u < 2 ^ r) :
    u ||| (2 ^ 8 - 2 ^ r) = u + (2 ^ 8 - 2 ^ r) := by
  have hsplit : (2 : Nat) ^ r * 2 ^ (8 - r) = 2 ^ 8 := by
    rw [← pow_add]
    congr 1
    omega
  have h1p : 1 ≤ (2 : Nat) ^ (8 - r) := Nat.one_le_two_pow
  have hd : (2 : Nat) ^ 8 - 2 ^ r = 2 ^ r * (2 ^ (8 - r) - 1) := by
    have hmul : (2 : Nat) ^ r * 2 ^ (8 - r) = 2 ^ r * (2 ^ (8 - r) - 1) + 2 ^ r := by
      have he : (2 : Nat) ^ (8 - r) = (2 ^ (8 - r) - 1) + 1 := by omega
      conv_lhs => rw [he]
      ring
    omega
  rw [hd, Nat.lor_comm, ← Nat.mul_add_lt_is_or hu (2 ^ (8 - r) - 1), Nat.add_comm]

/-- Claim C4: decoding a signed packed value whose top (sign) bit is set
writes the destination slot `sign_extend(stored, b, W)`: the stored `b`-bit
value in the low positions, the remainder of the partial byte filled with
ones, and every remaining byte of the `W`-bit slot set to `0xFF`.  Proven
for a single-value buffer starting at bit offset 0, for each supported
width `W` in {8, 16, 32, 64} and every `1 <= b <= W` and `v < 2 ^ b` whose
bit `b - 1` is set. -/
theorem C4_sign_extension (W b v : Nat)
    (hW : W = 8 ∨ W = 16 ∨ W = 32 ∨ W = 64)
    (hb1 : 1 ≤ b) (hbW : b ≤ W) (hv : v < 2 ^ b)
    (hneg : v.testBit (b - 1) = true) :
    BitpackedPageDecoder.decode true b W [(nat_to_le_bytes ((b + 7) / 8) v, 0, none)] 0 1
      = nat_to_le_bytes (W / 8) (sign_extend b W v) := by
  have hW8 : W % 8 = 0 := by rcases hW with rfl | rfl | rfl | rfl <;> rfl
  have hW1 : 8 ≤ W := by rcases hW with rfl | rfl | rfl | rfl <;> norm_num
  have hslen : (nat_to_le_bytes ((b + 7) / 8) v).length = (b + 7) / 8 :=
    nat_to_le_bytes_length _ _
  have hsgetD : ∀ j, j < (b + 7) / 8 →
      (nat_to_le_bytes ((b + 7) / 8) v).getD j 0 = v / 2 ^ (8 * j) % 256 :=
    fun j hj => nat_to_le_bytes_getD _ _ j hj
  have hcso : compute_start_offset 0 (nat_to_le_bytes ((b + 7) / 8) v).length b 0 none =
      StartOffset.skipSome ⟨0, 0⟩ := by
    rw [compute_start_offset]
    have hrows : ¬ (rows_in_buffer (nat_to_le_bytes ((b + 7) / 8) v).length b 0 none ≤ 0) := by
      rw [rows_in_buffer, hslen]
      have hble : b ≤ (b + 7) / 8 * 8 - 0 - 0 := by omega
      have := (Nat.one_le_div_iff (by omega : 0 < b)).mpr hble
      omega
    rw [if_neg hrows]
    simp
  rw [BitpackedPageDecoder.decode]
  simp only [decode_buffers, hcso]
  rw [decode_rows, if_pos (show
    ({ dest := List.replicate (W / 8 * 1) 0, dst_idx := 0, rows_taken := 0, src_idx := 0,
        src_offset := 0 } : RowState).src_idx < (nat_to_le_bytes ((b + 7) / 8) v).length ∧
    ({ dest := List.replicate (W / 8 * 1) 0, dst_idx := 0, rows_taken := 0, src_idx := 0,
        src_offset := 0 } : RowState).rows_taken < 1 from
      ⟨by show (0 : Nat) < (nat_to_le_bytes ((b + 7) / 8) v).length; omega, by norm_num⟩)]
  dsimp only
  rw [pow_zero, Nat.mul_one (W / 8), Nat.mul_one (2 ^ b - 1)]
  obtain ⟨dest2, cs2, cm2, heq, hlen2, hget2⟩ :=
    decode_inner_spec b v b hb1 (by omega) b 0 (nat_to_le_bytes ((b + 7) / 8) v) 0 0
      (List.replicate (W / 8) 0) (by omega) (by omega)
      (fun j hj => by rw [Nat.zero_add]; exact hsgetD j hj) hv
      (fun j hj => getD_replicate_zero _ _)
      (by rw [List.length_replicate]; omega)
  rw [heq, decode_rows]
  dsimp only
  rw [Nat.zero_add (b / 8)]
  have hisneg : is_encoded_item_negative (nat_to_le_bytes ((b + 7) / 8) v) 0 0 b = true :=
    is_encoded_item_negative_spec _ b v hb1 hsgetD hneg
  have hsn : (true && is_encoded_item_negative (nat_to_le_bytes ((b + 7) / 8) v) 0 0 b) = true := by
    rw [hisneg]
    rfl
  have hse : sign_extend b W v = v + (2 ^ W - 2 ^ b) := by
    rw [sign_extend, Nat.mod_eq_of_lt hv]
  by_cases hr : b % 8 = 0
  · -- value ends on a byte boundary: no partial-byte padding
    have hnpcbf : ¬ ((true && is_encoded_item_negative (nat_to_le_bytes ((b + 7) / 8) v) 0 0 b &&
        decide (0 < b % 8)) = true) := by
      rw [hisneg, hr]
      decide
    simp only [if_neg hnpcbf]
    by_cases hbw : W = b
    · have hwb : b = W := hbw.symm
      subst hwb
      simp only [if_neg (show ¬(b ≠ b) from by omega)]
      refine list_eq_of_getD _ _ ?_ ?_
      · rw [hlen2, List.length_replicate, nat_to_le_bytes_length]
      · intro m hm
        rw [hlen2, List.length_replicate] at hm
        rw [hget2, if_pos (show 0 ≤ m ∧ m < 0 + (b + 7) / 8 from ⟨by omega, by omega⟩),
          show m - 0 = m from by omega, nat_to_le_bytes_getD _ _ m hm, hse, Nat.sub_self,
          Nat.add_zero]
    · simp only [if_pos (show W ≠ b from by omega), if_pos hsn, if_pos hr]
      rw [show b / 8 + W / 8 - (b + 7) / 8 + 0 = W / 8 from by omega]
      refine list_eq_of_getD _ _ ?_ ?_
      · rw [fill_ff, fill_ff_foldl_length, List.length_set, hlen2, List.length_replicate,
          nat_to_le_bytes_length]
      · intro m hm
        rw [fill_ff, fill_ff_foldl_length, List.length_set, hlen2, List.length_replicate] at hm
        rw [fill_ff, fill_ff_foldl_getD _ _ _ m
            (by rw [List.length_set, hlen2, List.length_replicate]; omega),
          nat_to_le_bytes_getD _ _ m hm, hse]
        by_cases hmhi : b / 8 + 1 ≤ m
        · rw [if_pos ⟨hmhi, by omega⟩]
          exact (sign_extend_byte_high W b v m (by omega) (by omega) hv).symm
        · rw [if_neg (by omega)]
          by_cases hmeq : m = b / 8
          · rw [hmeq, getD_set_self _ _ _ _ (by rw [hlen2, List.length_replicate]; omega)]
            exact (sign_extend_byte_high W b v (b / 8) (by omega) (by omega) hv).symm
          · rw [getD_set_ne _ _ _ _ _ (by omega), hget2,
              if_pos (show 0 ≤ m ∧ m < 0 + (b + 7) / 8 from ⟨by omega, by omega⟩),
              show m - 0 = m from by omega]
            exact (sign_extend_byte_low W b v m (by omega) hbW).symm
  · -- value ends mid-byte: the partial byte is padded with sign bits
    have hnpcb : (true && is_encoded_item_negative (nat_to_le_bytes ((b + 7) / 8) v) 0 0 b &&
        decide (0 < b % 8)) = true := by
      rw [hisneg, decide_eq_true (show 0 < b % 8 from by omega)]
      rfl
    simp only [if_pos hnpcb, if_pos hsn, if_pos (show W ≠ b from by omega), if_neg hr]
    rw [show b / 8 + W / 8 - (b + 7) / 8 + 1 = W / 8 from by omega]
    have e2 : (2 : Nat) ^ b = 2 ^ (8 * (b / 8)) * 2 ^ (b % 8) := by
      rw [pow_split_two b (8 * (b / 8)) (by omega), show b - 8 * (b / 8) = b % 8 from by omega]
    have hu : v / 2 ^ (8 * (b / 8)) < 2 ^ (b % 8) :=
      Nat.div_lt_of_lt_mul (by rw [← e2]; exact hv)
    have hu256 : v / 2 ^ (8 * (b / 8)) < 256 :=
      lt_of_lt_of_le hu (le_trans
        (Nat.pow_le_pow_right (by norm_num) (show b % 8 ≤ 7 from by omega))
        (show (2 : Nat) ^ 7 ≤ 256 from by norm_num))
    rw [pad_sign_bits_spec 8 (b % 8) dest2 (b / 8) (by omega) (by omega)
        (by rw [hlen2, List.length_replicate]; omega)]
    have hmid : dest2.getD (b / 8) 0 = v / 2 ^ (8 * (b / 8)) := by
      rw [hget2, if_pos (show 0 ≤ b / 8 ∧ b / 8 < 0 + (b + 7) / 8 from ⟨by omega, by omega⟩),
        show b / 8 - 0 = b / 8 from by omega, Nat.mod_eq_of_lt hu256]
    rw [hmid, lor_pad_byte _ (b % 8) (by omega) (by omega) hu]
    refine list_eq_of_getD _ _ ?_ ?_
    · rw [fill_ff, fill_ff_foldl_length, List.length_set, hlen2, List.length_replicate,
        nat_to_le_bytes_length]
    · intro m hm
      rw [fill_ff, fill_ff_foldl_length, List.length_set, hlen2, List.length_replicate] at hm
      rw [fill_ff, fill_ff_foldl_getD _ _ _ m
          (by rw [List.length_set, hlen2, List.length_replicate]; omega),
        nat_to_le_bytes_getD _ _ m hm, hse]
      by_cases hmhi : b / 8 + 1 ≤ m
      · rw [if_pos ⟨hmhi, by omega⟩]
        exact (sign_extend_byte_high W b v m (by omega) (by omega) hv).symm
      · rw [if_neg (by omega)]
        by_cases hmeq : m = b / 8
        · rw [hmeq, getD_set_self _ _ _ _ (by rw [hlen2, List.length_replicate]; omega)]
          exact (sign_extend_byte_mid W b v hr hbW hW8 hv).symm
        · rw [getD_set_ne _ _ _ _ _ (by omega), hget2,
            if_pos (show 0 ≤ m ∧ m < 0 + (b + 7) / 8 from ⟨by omega, by omega⟩),
            show m - 0 = m from by omega]
          exact (sign_extend_byte_low W b v m (by omega) hbW).symm

theorem C4_witness :
    (8 = 8 ∨ 8 = 16 ∨ 8 = 32 ∨ 8 = 64) ∧ 1 ≤ 3 ∧ 3 ≤ 8 ∧ 5 < 2 ^ 3 ∧
      Nat.testBit 5 (3 - 1) = true ∧
    BitpackedPageDecoder.decode true 3 8 [(nat_to_le_bytes ((3 + 7) / 8) 5, 0, none)] 0 1
      = nat_to_le_bytes (8 / 8) (sign_extend 3 8 5) :=
  ⟨Or.inl rfl, by decide, by decide, by decide, by decide,
   C4_sign_extension 8 3 5 (Or.inl rfl) (by decide) (by decide) (by decide) (by decide)⟩
